import Mathlib

/-!
# primesieve: `EratSmall`

A shallow embedding of `src/soe/EratSmall.cpp` (the constructor's limit check
and `EratSmall::sieve`, the modulo 30 wheel crossing-off loop with its unrolled
fast loops).

Conventions of the embedding:

* `uint32_t` values are natural numbers reduced with `u32` (`% 2^32`) wherever
  the C++ expression is evaluated in 32-bit unsigned arithmetic;
* a `uint8_t*` is a natural-number byte offset from the `sieve` argument, and
  pointer arithmetic is exact (a flat address space);
* the memory is a function from byte offsets to byte values, together with a
  ghost log of the accesses `(offset, k)` made by `s[..] &= BITk`, in program
  order;
* loops take a `fuel` argument and return `none` when it runs out; the
  termination lemmas show that `8 * sieveSize + 8` is enough for the stored
  values `p / 15` and `9 * sieveSize + 8` for every 32-bit value.
-/

namespace EratSmall

/-! ## Data model -/

/-- Wrap-around of `uint32_t` arithmetic. -/
def u32 (n : Nat) : Nat := n % 4294967296

/-- Modelled from the spec: the constants `BIT0 .. BIT7` of `defs.h` (not among
the sources), "each with exactly one bit cleared": `0xFF` with bit `k` cleared. -/
def BIT (k : Nat) : Nat := 255 - 2 ^ k

/-- Modelled from the spec: `WheelPrime` (`WheelFactorization.h` is not among
the sources), the per-prime crossing state `(sievingPrime, multipleIndex,
wheelIndex)`; the fields carry the names of the accessors used by
`EratSmall::sieve` (`getSievingPrime`, `getSieveIndex`, `getWheelIndex`). -/
structure WheelPrime where
  sievingPrime : Nat
  sieveIndex : Nat
  wheelIndex : Nat
deriving DecidableEq, Repr

/-- Modelled from the spec: a bucket (`Bucket_t` is not among the sources), seen
as the list of its `getCount()` used `WheelPrime` entries, in array order. -/
abbrev Bucket := List WheelPrime

/-- The sieve memory: byte values by offset from `sieve`, and the ghost log of
the accesses `s[..] &= BITk` as pairs `(offset, k)` in program order. -/
structure Mem where
  bytes : Nat → Nat
  log : List (Nat × Nat)

/-- The statement `sieve[i] &= BITk`. -/
def Mem.andAt (m : Mem) (i k : Nat) : Mem :=
  { bytes := fun j => if j = i then m.bytes j &&& BIT k else m.bytes j
    log := m.log ++ [(i, k)] }

/-- The three step sizes `primeX2`, `primeX4`, `primeX6` of `EratSmall::sieve`. -/
inductive Mult where
  | X2
  | X4
  | X6
deriving DecidableEq, Repr

/-- `primeX4 = primeX2 * 2` in `uint32_t`. -/
def primeX4 (primeX2 : Nat) : Nat := u32 (primeX2 * 2)

/-- `primeX6 = primeX2 * 3` in `uint32_t`. -/
def primeX6 (primeX2 : Nat) : Nat := u32 (primeX2 * 3)

/-- Value of a step size for a given `primeX2`. -/
def Mult.val (primeX2 : Nat) : Mult → Nat
  | .X2 => primeX2
  | .X4 => primeX4 primeX2
  | .X6 => primeX6 primeX2

/-- One `case` line of the switch:
`case w: *s &= BIT<bit>; s += <mult> + <add>; if (s >= sieveEnd) { setWheelIndex(<next>); break; }`. -/
structure Step where
  bit : Nat
  mult : Mult
  add : Nat
  next : Nat
deriving DecidableEq, Repr

/-- The 64 case labels of the switch in `EratSmall::sieve`, by case number;
`none` for a value without a case label. -/
def wheelStep : Nat → Option Step
  -- for sieving primes of type i * 30 + 7
  | 1 => some ⟨0, .X6, 1, 2⟩
  | 2 => some ⟨4, .X4, 1, 3⟩
  | 3 => some ⟨3, .X2, 0, 4⟩
  | 4 => some ⟨7, .X4, 1, 5⟩
  | 5 => some ⟨6, .X2, 1, 6⟩
  | 6 => some ⟨2, .X4, 1, 7⟩
  | 7 => some ⟨1, .X6, 1, 0⟩
  | 0 => some ⟨5, .X2, 1, 1⟩
  -- for sieving primes of type i * 30 + 11
  | 9 => some ⟨1, .X6, 2, 10⟩
  | 10 => some ⟨3, .X4, 1, 11⟩
  | 11 => some ⟨7, .X2, 1, 12⟩
  | 12 => some ⟨5, .X4, 2, 13⟩
  | 13 => some ⟨0, .X2, 0, 14⟩
  | 14 => some ⟨6, .X4, 2, 15⟩
  | 15 => some ⟨2, .X6, 2, 8⟩
  | 8 => some ⟨4, .X2, 1, 9⟩
  -- for sieving primes of type i * 30 + 13
  | 17 => some ⟨2, .X6, 2, 18⟩
  | 18 => some ⟨7, .X4, 2, 19⟩
  | 19 => some ⟨5, .X2, 1, 20⟩
  | 20 => some ⟨4, .X4, 2, 21⟩
  | 21 => some ⟨1, .X2, 1, 22⟩
  | 22 => some ⟨0, .X4, 1, 23⟩
  | 23 => some ⟨6, .X6, 3, 16⟩
  | 16 => some ⟨3, .X2, 1, 17⟩
  -- for sieving primes of type i * 30 + 17
  | 25 => some ⟨3, .X6, 0, 26⟩
  | 26 => some ⟨6, .X4, 1, 27⟩
  | 27 => some ⟨0, .X2, 0, 28⟩
  | 28 => some ⟨1, .X4, 0, 29⟩
  | 29 => some ⟨4, .X2, 0, 30⟩
  | 30 => some ⟨5, .X4, 0, 31⟩
  | 31 => some ⟨7, .X6, 1, 24⟩
  | 24 => some ⟨2, .X2, 0, 25⟩
  -- for sieving primes of type i * 30 + 19
  | 33 => some ⟨4, .X6, 1, 34⟩
  | 34 => some ⟨2, .X4, 0, 35⟩
  | 35 => some ⟨6, .X2, 1, 36⟩
  | 36 => some ⟨0, .X4, 0, 37⟩
  | 37 => some ⟨5, .X2, 0, 38⟩
  | 38 => some ⟨7, .X4, 1, 39⟩
  | 39 => some ⟨3, .X6, 1, 32⟩
  | 32 => some ⟨1, .X2, 0, 33⟩
  -- for sieving primes of type i * 30 + 23
  | 41 => some ⟨5, .X6, 2, 42⟩
  | 42 => some ⟨1, .X4, 1, 43⟩
  | 43 => some ⟨2, .X2, 0, 44⟩
  | 44 => some ⟨6, .X4, 1, 45⟩
  | 45 => some ⟨7, .X2, 1, 46⟩
  | 46 => some ⟨3, .X4, 1, 47⟩
  | 47 => some ⟨4, .X6, 2, 40⟩
  | 40 => some ⟨0, .X2, 0, 41⟩
  -- for sieving primes of type i * 30 + 29
  | 49 => some ⟨6, .X6, 3, 50⟩
  | 50 => some ⟨5, .X4, 2, 51⟩
  | 51 => some ⟨4, .X2, 1, 52⟩
  | 52 => some ⟨3, .X4, 2, 53⟩
  | 53 => some ⟨2, .X2, 1, 54⟩
  | 54 => some ⟨1, .X4, 2, 55⟩
  | 55 => some ⟨0, .X6, 2, 48⟩
  | 48 => some ⟨7, .X2, 1, 49⟩
  -- for sieving primes of type i * 30 + 31
  | 57 => some ⟨7, .X6, 1, 58⟩
  | 58 => some ⟨0, .X4, 0, 59⟩
  | 59 => some ⟨1, .X2, 0, 60⟩
  | 60 => some ⟨2, .X4, 0, 61⟩
  | 61 => some ⟨3, .X2, 0, 62⟩
  | 62 => some ⟨4, .X4, 0, 63⟩
  | 63 => some ⟨5, .X6, 0, 56⟩
  | 56 => some ⟨6, .X2, 0, 57⟩
  | _ => none

/-- A statement of the body of an unrolled fast loop. -/
inductive Op where
  /-- The statement `s[c] &= BITk` (`*s` is `s[0]`). -/
  | andC (c k : Nat)
  /-- The statement `s[primeX4 + c] &= BITk` (`s[primeX4]` is `c = 0`). -/
  | andX4 (c k : Nat)
  /-- The statement `s += primeX6 + c` (`s += primeX6` is `c = 0`). -/
  | inc (c : Nat)
deriving DecidableEq, Repr

/-- The unrolled `while` loops, by the case label that holds them: the constant
`c` of the loop condition `(s + c) + primeX6 * 5 < sieveEnd` and the statements
of the loop body in program order; `none` for a case without a loop. -/
def fastLoopOf : Nat → Option (Nat × List Op)
  | 0 => some (7, [.andC 0 0, .inc 0, .andC 1 4, .andX4 2 3, .inc 0, .andC 2 7, .andX4 3 6,
      .inc 0, .andC 4 2, .andX4 5 1, .inc 0, .andX4 6 5, .inc 7])
  | 8 => some (11, [.andC 0 1, .inc 0, .andC 2 3, .andX4 3 7, .inc 0, .andC 4 5, .andX4 6 0,
      .inc 0, .andC 6 6, .andX4 8 2, .inc 0, .andX4 10 4, .inc 11])
  | 16 => some (13, [.andC 0 2, .inc 0, .andC 2 7, .andX4 4 5, .inc 0, .andC 5 4, .andX4 7 1,
      .inc 0, .andC 8 0, .andX4 9 6, .inc 0, .andX4 12 3, .inc 13])
  | 24 => some (2, [.andC 0 3, .inc 0, .andC 0 6, .andX4 1 0, .inc 0, .andC 1 1, .andX4 1 4,
      .inc 0, .andC 1 5, .andX4 1 7, .inc 2, .andX4 0 2, .inc 0])
  | 32 => some (4, [.andC 0 4, .inc 0, .andC 1 2, .andX4 1 6, .inc 0, .andC 2 0, .andX4 2 5,
      .inc 0, .andC 2 7, .andX4 3 3, .inc 4, .andX4 0 1, .inc 0])
  | 40 => some (8, [.andC 0 5, .inc 0, .andC 2 1, .andX4 3 2, .inc 0, .andC 3 6, .andX4 4 7,
      .inc 0, .andC 5 3, .andX4 6 4, .inc 8, .andX4 0 0, .inc 0])
  | 48 => some (14, [.andC 0 6, .inc 0, .andC 3 5, .andX4 5 4, .inc 0, .andC 6 3, .andX4 8 2,
      .inc 0, .andC 9 1, .andX4 11 0, .inc 0, .andX4 13 7, .inc 14])
  | 56 => some (1, [.andC 0 7, .inc 1, .andC 0 0, .andX4 0 1, .inc 0, .andC 0 2, .andX4 0 3,
      .inc 0, .andC 0 4, .andX4 0 5, .inc 0, .andX4 0 6, .inc 0])
  | _ => none

/-! ## `EratSmall::sieve` -/

/-- One statement of a fast loop body, on the pointer `s` and the memory. -/
def execOp (primeX2 : Nat) (st : Nat × Mem) : Op → Nat × Mem
  | .andC c k => (st.1, st.2.andAt (st.1 + c) k)
  | .andX4 c k => (st.1, st.2.andAt (st.1 + u32 (primeX4 primeX2 + c)) k)
  | .inc c => (st.1 + u32 (primeX6 primeX2 + c), st.2)

/-- The statements of a fast loop body, in program order. -/
def execOps (primeX2 : Nat) (ops : List Op) (st : Nat × Mem) : Nat × Mem :=
  ops.foldl (execOp primeX2) st

/-- The loop `while ((s + c) + primeX6 * 5 < sieveEnd) { body }`. -/
def fastLoop (primeX2 sieveSize c : Nat) (body : List Op) : Nat → Nat → Mem → Option (Nat × Mem)
  | 0, s, m =>
    if (s + c) + u32 (primeX6 primeX2 * 5) < sieveSize then none else some (s, m)
  | fuel + 1, s, m =>
    if (s + c) + u32 (primeX6 primeX2 * 5) < sieveSize then
      fastLoop primeX2 sieveSize c body fuel (execOps primeX2 body (s, m)).1
        (execOps primeX2 body (s, m)).2
    else some (s, m)

/-- The case reached from case `w` when its exit test fails: the next case in
program order (`1, 2, .., 7, 0` in each group), and from the last one back to
the first by `for (;;)`. -/
def fallThrough (w : Nat) : Nat := if w % 8 = 7 then w - 7 else w + 1

/-- The `switch (wPrime->getWheelIndex())` of `EratSmall::sieve`, entered at
case `w` with the pointer at offset `s`: returns the final pointer offset,
the wheel index left in the `WheelPrime` and the memory. -/
def crossOff (primeX2 sieveSize : Nat) : Nat → Nat → Nat → Mem → Option (Nat × Nat × Mem)
  | 0, _, _, _ => none
  | fuel + 1, w, s, m =>
    match wheelStep w with
    | none => some (s, w, m)
    | some st =>
      match fastLoopOf w with
      | none =>
        if sieveSize ≤ s + u32 (st.mult.val primeX2 + st.add) then
          some (s + u32 (st.mult.val primeX2 + st.add), st.next, m.andAt s st.bit)
        else
          crossOff primeX2 sieveSize fuel (fallThrough w)
            (s + u32 (st.mult.val primeX2 + st.add)) (m.andAt s st.bit)
      | some (c, body) =>
        match fastLoop primeX2 sieveSize c body fuel
            (s + u32 (st.mult.val primeX2 + st.add)) (m.andAt s st.bit) with
        | none => none
        | some (s2, m2) =>
          if sieveSize ≤ s2 then some (s2, st.next, m2)
          else crossOff primeX2 sieveSize fuel (fallThrough w) s2 m2

/-- The value `static_cast<uint32_t> (s - sieveEnd)`. -/
def ptrDiffU32 (s sieveSize : Nat) : Nat :=
  Int.toNat (((s : Int) - (sieveSize : Int)) % 4294967296)

/-- The body of the loop over the `WheelPrime`s of a bucket: cross off the
multiples of one sieving prime and store its indexes for the next segment. -/
def sievePrime (fuel sieveSize : Nat) (wPrime : WheelPrime) (m : Mem) : Option (WheelPrime × Mem) :=
  match crossOff wPrime.sievingPrime sieveSize fuel wPrime.wheelIndex wPrime.sieveIndex m with
  | none => none
  | some (s, w, m1) =>
    some ({ sievingPrime := wPrime.sievingPrime, sieveIndex := ptrDiffU32 s sieveSize,
            wheelIndex := w }, m1)

/-- The loop `for (WheelPrime* end = &wPrime[count]; wPrime != end; wPrime++)`. -/
def sieveBucket (fuel sieveSize : Nat) : Bucket → Mem → Option (Bucket × Mem)
  | [], m => some ([], m)
  | wPrime :: rest, m =>
    match sievePrime fuel sieveSize wPrime m with
    | none => none
    | some (wPrime1, m1) =>
      match sieveBucket fuel sieveSize rest m1 with
      | none => none
      | some (rest1, m2) => some (wPrime1 :: rest1, m2)

/-- The function `EratSmall::sieve(uint8_t* sieve, uint32_t sieveSize)`: the loop over
the bucket list. -/
def sieve (fuel sieveSize : Nat) : List Bucket → Mem → Option (List Bucket × Mem)
  | [], m => some ([], m)
  | bucket :: rest, m =>
    match sieveBucket fuel sieveSize bucket m with
    | none => none
    | some (bucket1, m1) =>
      match sieve fuel sieveSize rest m1 with
      | none => none
      | some (rest1, m2) => some (bucket1 :: rest1, m2)

/-! ## The constructor -/

/-- The constructor `EratSmall::EratSmall(uint32_t limit, const SieveOfEratosthenes& soe)`,
as far as `EratSmall.cpp` shows it: the base class keeps `limit` as `limit_`, and the
check `limit_ >= (soe.getSieveSize() - 2) * 5` is evaluated in `uint32_t`.
`Except.error` is the `std::invalid_argument` that is thrown. -/
def EratSmall (limit sieveSize : Nat) : Except String Unit :=
  if u32 (u32 (sieveSize + 4294967296 - 2) * 5) ≤ limit then
    Except.error "EratSmall: limit must be < (sieveSize - 2) * 5."
  else Except.ok ()

/-! ## Reading bits as numbers -/

/-- The number offsets of the 8 bits of a byte, as `EratSmall::sieve` uses them. -/
def bitValue : Nat → Nat
  | 0 => 7
  | 1 => 11
  | 2 => 13
  | 3 => 17
  | 4 => 19
  | 5 => 23
  | 6 => 29
  | _ => 31

/-- The number that bit `b` of byte `i` stands for (relative to the segment base). -/
def number (i b : Nat) : Nat := 30 * i + bitValue b

/-- The wheel group of a sieving prime `p`: cases `8 * g .. 8 * g + 7`. -/
def groupOf (p : Nat) : Nat :=
  match p % 30 with
  | 7 => 0
  | 11 => 1
  | 13 => 2
  | 17 => 3
  | 19 => 4
  | 23 => 5
  | 29 => 6
  | 1 => 7
  | _ => 8

/-! ## Vocabulary of the theorems

Single steps from a case, the accesses they make, and the numbers that bits stand for. -/

/-- No `uint32_t` wrap-around occurs for the stored value `primeX2`: it is `p / 15`
for a 32-bit `p`. -/
def NoWrap (primeX2 : Nat) : Prop := 15 * primeX2 < 4294967296

instance (x : Nat) : Decidable (NoWrap x) := by unfold NoWrap; infer_instance

/-- Byte advance of the single step of case `w`. -/
def adv (primeX2 w : Nat) : Nat :=
  match wheelStep w with
  | some st => u32 (st.mult.val primeX2 + st.add)
  | none => 0

/-- The `k` of the mask `BITk` of case `w`. -/
def bitOf (w : Nat) : Nat :=
  match wheelStep w with
  | some st => st.bit
  | none => 0

/-- The case reached from case `w` after `n` single steps. -/
def caseAt (w n : Nat) : Nat := 8 * (w / 8) + (w + n) % 8

/-- The pointer offset after `n` single steps from case `w` at offset `s`. -/
def pos (primeX2 w s : Nat) : Nat → Nat
  | 0 => s
  | n + 1 => pos primeX2 w s n + adv primeX2 (caseAt w n)

/-- The accesses of the first `n` single steps from case `w` at offset `s`. -/
def hits (primeX2 w s n : Nat) : List (Nat × Nat) :=
  (List.range n).map fun j => (pos primeX2 w s j, bitOf (caseAt w j))

/-- A list of accesses applied to the memory, in order. -/
def Mem.applyHits (m : Mem) (hs : List (Nat × Nat)) : Mem :=
  hs.foldl (fun a h => a.andAt h.1 h.2) m

/-- The single steps from `(w, s)` leave the segment after exactly `n` steps. -/
def ExitAt (primeX2 sieveSize w s n : Nat) : Prop :=
  1 ≤ n ∧ (∀ j, 1 ≤ j → j < n → pos primeX2 w s j < sieveSize) ∧ sieveSize ≤ pos primeX2 w s n

/-- The revolution length of group `g` is `15 * primeX2 + groupAdd g`. -/
def groupAdd : Nat → Nat
  | 0 => 7
  | 1 => 11
  | 2 => 13
  | 3 => 2
  | 4 => 4
  | 5 => 8
  | 6 => 14
  | _ => 1

/-- Multiplier of `primeX2` in the step size of case `w`. -/
def stepCoef (w : Nat) : Nat :=
  match wheelStep w with
  | some st => (match st.mult with
    | .X2 => 1
    | .X4 => 2
    | .X6 => 3)
  | none => 0

/-- Constant of the step size of case `w`. -/
def stepAdd (w : Nat) : Nat :=
  match wheelStep w with
  | some st => st.add
  | none => 0

/-- Sum of the multipliers of the first `n` steps from case `w`. -/
def coefSum (w : Nat) : Nat → Nat
  | 0 => 0
  | n + 1 => coefSum w n + stepCoef (caseAt w n)

/-- Sum of the constants of the first `n` steps from case `w`. -/
def addSum (w : Nat) : Nat → Nat
  | 0 => 0
  | n + 1 => addSum w n + stepAdd (caseAt w n)

/-- Pointer offset, as a pair `(a, b)` meaning `a * primeX2 + b`, after the
statements of a fast loop body. -/
def symEnd : List Op → Nat × Nat → Nat × Nat
  | [], ab => ab
  | .andC _ _ :: r, ab => symEnd r ab
  | .andX4 _ _ :: r, ab => symEnd r ab
  | .inc c :: r, ab => symEnd r (ab.1 + 3, ab.2 + c)

/-- Accesses of a fast loop body as triples `(a, b, k)`: offset
`a * primeX2 + b` from the pointer at loop entry, mask `BITk`. -/
def symHits : List Op → Nat × Nat → List (Nat × Nat × Nat)
  | [], _ => []
  | .andC c k :: r, ab => (ab.1, ab.2 + c, k) :: symHits r ab
  | .andX4 c k :: r, ab => (ab.1 + 2, ab.2 + c, k) :: symHits r ab
  | .inc c :: r, ab => symHits r (ab.1 + 3, ab.2 + c)

/-- The constant of a statement of a fast loop body. -/
def Op.const : Op → Nat
  | .andC c _ => c
  | .andX4 c _ => c
  | .inc c => c

/-- Number of single steps after which the steps from `(w, s)` leave the segment. -/
def exitIndex (primeX2 sieveSize w s : Nat) : Nat :=
  if h : ∃ n, n < 8 * (sieveSize - s) + 9 ∧ (1 ≤ n ∧ sieveSize ≤ pos primeX2 w s n) then Nat.find h
  else 0

/-- The accesses that `EratSmall::sieve` makes for one `WheelPrime`. -/
def primeHits (sieveSize : Nat) (wp : WheelPrime) : List (Nat × Nat) :=
  hits wp.sievingPrime wp.wheelIndex wp.sieveIndex
    (exitIndex wp.sievingPrime sieveSize wp.wheelIndex wp.sieveIndex)

/-- The state that `EratSmall::sieve` leaves in one `WheelPrime`. -/
def primeNext (sieveSize : Nat) (wp : WheelPrime) : WheelPrime :=
  { sievingPrime := wp.sievingPrime
    sieveIndex := ptrDiffU32 (pos wp.sievingPrime wp.wheelIndex wp.sieveIndex
      (exitIndex wp.sievingPrime sieveSize wp.wheelIndex wp.sieveIndex)) sieveSize
    wheelIndex := caseAt wp.wheelIndex
      (exitIndex wp.sievingPrime sieveSize wp.wheelIndex wp.sieveIndex) }

/-- A stored state that `EratSmall::sieve` can dispatch on: a case label and a
`sievingPrime` value `p / 15` of a 32-bit `p`. -/
def Valid (wp : WheelPrime) : Prop := wp.wheelIndex < 64 ∧ NoWrap wp.sievingPrime

/-- The mask AND-ed to byte `i` by a list of accesses. -/
def maskAt (i : Nat) : List (Nat × Nat) → Nat
  | [] => 255
  | h :: r => if h.1 = i then BIT h.2 &&& maskAt i r else maskAt i r

/-- The residue `p % 30` of the sieving primes of group `g`. -/
def groupRes : Nat → Nat
  | 0 => 7
  | 1 => 11
  | 2 => 13
  | 3 => 17
  | 4 => 19
  | 5 => 23
  | 6 => 29
  | _ => 1

/-- No residue strictly between `r` and `r + 2 * stepCoef w` is coprime to 30. -/
def gapCheck (w r : Nat) : Bool :=
  (List.range (2 * stepCoef w)).all fun d => d == 0 || Nat.gcd (r + d) 30 != 1

/-- A sieving prime `p` whose `WheelPrime` uses the cases of its group. -/
def InGroup (p w : Nat) : Prop := Nat.Coprime p 30 ∧ p < 4294967296 ∧ w / 8 = groupOf p

/-- The entry state of a `WheelPrime` of the sieving prime `p`: `p >= 7` is a 32-bit
number coprime to 30 stored as `p / 15`, the wheel index is in the group of `p`, the
sieve index is inside the segment, and the bit cleared by case `wheelIndex` at byte
`sieveIndex` represents a multiple of `p`. -/
def PointsAt (p sieveSize : Nat) (wp : WheelPrime) : Prop :=
  7 ≤ p ∧ Nat.Coprime p 30 ∧ p < 4294967296 ∧ wp.sievingPrime = p / 15 ∧
    wp.wheelIndex / 8 = groupOf p ∧ wp.sieveIndex < sieveSize ∧
    p ∣ number wp.sieveIndex (bitOf wp.wheelIndex)

instance (wp : WheelPrime) : Decidable (Valid wp) := by
  unfold Valid; infer_instance

instance (p sieveSize : Nat) (wp : WheelPrime) : Decidable (PointsAt p sieveSize wp) := by
  unfold PointsAt; infer_instance

/-- The conjunction of the masks `BITk`, `k` in the list. -/
def andMasks : List Nat → Nat
  | [] => 255
  | k :: r => BIT k &&& andMasks r

/-- Modelled from the spec: the bit layout of section 3, "the 8 bits correspond to the
residues `{1,7,11,13,17,19,23,29} mod 30` (positions 0..7)". -/
def specBitValue : Nat → Nat
  | 0 => 1
  | 1 => 7
  | 2 => 11
  | 3 => 13
  | 4 => 17
  | 5 => 19
  | 6 => 23
  | _ => 29

/-- Modelled from the spec: the number that bit `b` of byte `i` stands for when "each
byte of the sieve represents 30 consecutive integers" and the bits follow `specBitValue`. -/
def specNumber (i b : Nat) : Nat := 30 * i + specBitValue b

/-- The memory with every bit set and an empty access log. -/
def allSet : Mem := { bytes := fun _ => 255, log := [] }

/-- The memory as seen through the pointer `sieve + n` (the following segment), with a
fresh access log. -/
def Mem.shift (n : Nat) (m : Mem) : Mem :=
  { bytes := fun i => m.bytes (n + i), log := [] }

/-- An access moved `n` bytes up. -/
def shiftHit (n : Nat) (h : Nat × Nat) : Nat × Nat := (h.1 + n, h.2)

/-- Reference version of `crossOff` for the refinement claim: the switch of
`EratSmall::sieve` with every inner `while` loop deleted, so that the case that held
the loop is a single step like the other seven. -/
def crossOffNoLoop (primeX2 sieveSize : Nat) : Nat → Nat → Nat → Mem → Option (Nat × Nat × Mem)
  | 0, _, _, _ => none
  | fuel + 1, w, s, m =>
    match wheelStep w with
    | none => some (s, w, m)
    | some st =>
      if sieveSize ≤ s + u32 (st.mult.val primeX2 + st.add) then
        some (s + u32 (st.mult.val primeX2 + st.add), st.next, m.andAt s st.bit)
      else
        crossOffNoLoop primeX2 sieveSize fuel (fallThrough w)
          (s + u32 (st.mult.val primeX2 + st.add)) (m.andAt s st.bit)

/-- Reference version of `sievePrime`, on `crossOffNoLoop`. -/
def sievePrimeNoLoop (fuel sieveSize : Nat) (wPrime : WheelPrime) (m : Mem) :
    Option (WheelPrime × Mem) :=
  match crossOffNoLoop wPrime.sievingPrime sieveSize fuel wPrime.wheelIndex wPrime.sieveIndex m with
  | none => none
  | some (s, w, m1) =>
    some ({ sievingPrime := wPrime.sievingPrime, sieveIndex := ptrDiffU32 s sieveSize,
            wheelIndex := w }, m1)

/-- Reference version of `sieveBucket`, on `sievePrimeNoLoop`. -/
def sieveBucketNoLoop (fuel sieveSize : Nat) : Bucket → Mem → Option (Bucket × Mem)
  | [], m => some ([], m)
  | wPrime :: rest, m =>
    match sievePrimeNoLoop fuel sieveSize wPrime m with
    | none => none
    | some (wPrime1, m1) =>
      match sieveBucketNoLoop fuel sieveSize rest m1 with
      | none => none
      | some (rest1, m2) => some (wPrime1 :: rest1, m2)

/-- Reference version of `sieve`: `EratSmall::sieve` without its 8 inner `while` loops. -/
def sieveNoLoop (fuel sieveSize : Nat) : List Bucket → Mem → Option (List Bucket × Mem)
  | [], m => some ([], m)
  | bucket :: rest, m =>
    match sieveBucketNoLoop fuel sieveSize bucket m with
    | none => none
    | some (bucket1, m1) =>
      match sieveNoLoop fuel sieveSize rest m1 with
      | none => none
      | some (rest1, m2) => some (bucket1 :: rest1, m2)

/-- Pointer advance of the statements of a fast loop body. -/
def opsAdvance (primeX2 : Nat) : List Op → Nat
  | [] => 0
  | .andC _ _ :: r => opsAdvance primeX2 r
  | .andX4 _ _ :: r => opsAdvance primeX2 r
  | .inc c :: r => u32 (primeX6 primeX2 + c) + opsAdvance primeX2 r

/-- Accesses of the statements of a fast loop body entered with the pointer at `s`. -/
def opsHits (primeX2 : Nat) : List Op → Nat → List (Nat × Nat)
  | [], _ => []
  | .andC c k :: r, s => (s + c, k) :: opsHits primeX2 r s
  | .andX4 c k :: r, s => (s + u32 (primeX4 primeX2 + c), k) :: opsHits primeX2 r s
  | .inc c :: r, s => opsHits primeX2 r (s + u32 (primeX6 primeX2 + c))

/-- The masks of the first `n` single steps from case `w`, in order. -/
def maskSeq (w n : Nat) : List Nat := (List.range n).map fun j => bitOf (caseAt w j)

/-- The accesses that `EratSmall::sieve` makes for one `WheelPrime`: the access log of
`sievePrime` run on a memory with an empty log. -/
def primeTrace (fuel sieveSize : Nat) (wp : WheelPrime) : List (Nat × Nat) :=
  match sievePrime fuel sieveSize wp allSet with
  | some r => r.2.log
  | none => []

/-- The state that `EratSmall::sieve` stores for one `WheelPrime`. -/
def primeAfter (fuel sieveSize : Nat) (wp : WheelPrime) : WheelPrime :=
  match sievePrime fuel sieveSize wp allSet with
  | some r => r.1
  | none => wp

/-! ## Single steps -/

theorem wheelStep_isSome : ∀ w, w < 64 → ∃ st, wheelStep w = some st := by
  intro w hw
  interval_cases w <;> exact ⟨_, rfl⟩

theorem wheelStep_none (w : Nat) (hw : 64 ≤ w) : wheelStep w = none := by
  unfold wheelStep
  split <;> first | omega | rfl

theorem step_next : ∀ w, w < 64 → ∀ st, wheelStep w = some st → st.next = fallThrough w := by
  intro w hw
  interval_cases w <;> intro st h <;> simp [wheelStep] at h <;> subst h <;> rfl

theorem fallThrough_eq (w : Nat) : fallThrough w = caseAt w 1 := by
  unfold fallThrough caseAt
  split <;> omega

theorem fallThrough_lt (w : Nat) (hw : w < 64) : fallThrough w < 64 := by
  unfold fallThrough
  split <;> omega

theorem caseAt_zero (w : Nat) : caseAt w 0 = w := by
  unfold caseAt; omega

theorem caseAt_lt (w n : Nat) (hw : w < 64) : caseAt w n < 64 := by
  unfold caseAt; omega

theorem caseAt_caseAt (w a b : Nat) : caseAt (caseAt w a) b = caseAt w (a + b) := by
  unfold caseAt; omega

theorem caseAt_eight (w n : Nat) : caseAt w (8 * n) = w := by
  unfold caseAt; omega

theorem pos_shift (x w s : Nat) : ∀ n, pos x w s (n + 1) = pos x (fallThrough w) (s + adv x w) n := by
  intro n
  induction n with
  | zero => simp [pos, caseAt_zero]
  | succ n ih =>
    rw [pos, ih, pos, fallThrough_eq, caseAt_caseAt, Nat.add_comm 1 n]

theorem pos_add (x w s a : Nat) : ∀ b, pos x w s (a + b) = pos x (caseAt w a) (pos x w s a) b := by
  intro b
  induction b with
  | zero => rfl
  | succ b ih => rw [← Nat.add_assoc, pos, ih, pos, caseAt_caseAt]

theorem pos_le_succ (x w s n : Nat) : pos x w s n ≤ pos x w s (n + 1) := by
  rw [pos]; omega

theorem pos_mono (x w s : Nat) {a b : Nat} (h : a ≤ b) : pos x w s a ≤ pos x w s b := by
  induction h with
  | refl => exact Nat.le_refl _
  | step _ ih => exact Nat.le_trans ih (pos_le_succ x w s _)

theorem hits_zero (x w s : Nat) : hits x w s 0 = [] := rfl

theorem hits_succ (x w s n : Nat) :
    hits x w s (n + 1) = hits x w s n ++ [(pos x w s n, bitOf (caseAt w n))] := by
  simp [hits, List.range_succ]

theorem hits_add (x w s a : Nat) : ∀ b,
    hits x w s (a + b) = hits x w s a ++ hits x (caseAt w a) (pos x w s a) b := by
  intro b
  induction b with
  | zero => simp [hits_zero]
  | succ b ih =>
    rw [← Nat.add_assoc, hits_succ, ih, hits_succ, pos_add, caseAt_caseAt, List.append_assoc]

theorem hits_shift (x w s n : Nat) :
    hits x w s (n + 1) = (s, bitOf w) :: hits x (fallThrough w) (s + adv x w) n := by
  have h := hits_add x w s 1 n
  rw [Nat.add_comm 1 n] at h
  rw [h, fallThrough_eq]
  have h1 : hits x w s 1 = [(s, bitOf w)] := by
    simp [hits, List.range_succ, pos, caseAt_zero]
  rw [h1]
  simp [pos, caseAt_zero]

theorem hits_length (x w s n : Nat) : (hits x w s n).length = n := by
  simp [hits]

theorem applyHits_nil (m : Mem) : m.applyHits [] = m := rfl

theorem applyHits_cons (m : Mem) (h : Nat × Nat) (hs : List (Nat × Nat)) :
    m.applyHits (h :: hs) = (m.andAt h.1 h.2).applyHits hs := rfl

theorem applyHits_append (m : Mem) (a b : List (Nat × Nat)) :
    m.applyHits (a ++ b) = (m.applyHits a).applyHits b := by
  simp [Mem.applyHits, List.foldl_append]

/-! ## Step sizes without wrap-around -/

theorem stepAdd_le : ∀ w, w < 64 → stepAdd w ≤ 3 := by decide

theorem stepCoef_le : ∀ w, w < 64 → stepCoef w ≤ 3 := by decide

theorem adv_eq (x w : Nat) (hx : NoWrap x) (hw : w < 64) :
    adv x w = stepCoef w * x + stepAdd w := by
  have h1 := stepAdd_le w hw
  obtain ⟨st, hst⟩ := wheelStep_isSome w hw
  unfold NoWrap at hx
  unfold adv stepCoef stepAdd at *
  rw [hst] at h1 ⊢
  simp only at h1 ⊢
  cases hm : st.mult <;> simp only [Mult.val, primeX4, primeX6, u32] <;> omega

theorem pos_lin (x w s : Nat) (hx : NoWrap x) (hw : w < 64) :
    ∀ n, pos x w s n = s + coefSum w n * x + addSum w n := by
  intro n
  induction n with
  | zero => simp [pos, coefSum, addSum]
  | succ n ih =>
    rw [pos, ih, adv_eq x _ hx (caseAt_lt w n hw), coefSum, addSum, Nat.add_mul]
    omega

theorem sums_eight : ∀ w, w < 64 → coefSum w 8 = 15 ∧ addSum w 8 = groupAdd (w / 8) := by
  decide

theorem pos_eight (x w s : Nat) (hx : NoWrap x) (hw : w < 64) :
    pos x w s 8 = s + 15 * x + groupAdd (w / 8) := by
  rw [pos_lin x w s hx hw, (sums_eight w hw).1, (sums_eight w hw).2]

theorem adv_le (x w : Nat) (hx : NoWrap x) (hw : w < 64) : adv x w ≤ 3 * x + 3 := by
  rw [adv_eq x w hx hw]
  have h1 := stepAdd_le w hw
  have h2 := stepCoef_le w hw
  have h3 : stepCoef w * x ≤ 3 * x := Nat.mul_le_mul_right x h2
  omega

theorem groupAdd_pos (g : Nat) : 1 ≤ groupAdd g := by
  unfold groupAdd
  split <;> omega

/-! ## The unrolled loops, statement by statement -/

theorem execOps_sym (x s0 : Nat) (hx : NoWrap x) : ∀ (ops : List Op) (a b : Nat) (m : Mem),
    (∀ op ∈ ops, op.const ≤ 14) →
    execOps x ops (s0 + a * x + b, m) =
      (s0 + (symEnd ops (a, b)).1 * x + (symEnd ops (a, b)).2,
        m.applyHits ((symHits ops (a, b)).map fun h => (s0 + h.1 * x + h.2.1, h.2.2))) := by
  intro ops
  unfold NoWrap at hx
  induction ops with
  | nil => intro a b m _; rfl
  | cons op r ih =>
    intro a b m hc
    have hr : ∀ op ∈ r, op.const ≤ 14 := fun o ho => hc o (List.mem_cons_of_mem _ ho)
    have h0 : op.const ≤ 14 := hc op (List.mem_cons_self _ _)
    cases op with
    | andC c k =>
      have e : execOps x (Op.andC c k :: r) (s0 + a * x + b, m)
          = execOps x r (s0 + a * x + b, m.andAt (s0 + a * x + b + c) k) := rfl
      rw [e, ih a b _ hr]
      simp only [symEnd, symHits, List.map_cons, applyHits_cons]
      rw [Nat.add_assoc (s0 + a * x) b c]
    | andX4 c k =>
      have e : execOps x (Op.andX4 c k :: r) (s0 + a * x + b, m)
          = execOps x r (s0 + a * x + b, m.andAt (s0 + a * x + b + u32 (primeX4 x + c)) k) := rfl
      rw [e, ih a b _ hr]
      simp only [symEnd, symHits, List.map_cons, applyHits_cons]
      have e2 : s0 + a * x + b + u32 (primeX4 x + c) = s0 + (a + 2) * x + (b + c) := by
        simp only [Op.const] at h0
        simp only [primeX4, u32, Nat.add_mul]
        omega
      rw [e2]
    | inc c =>
      have e2 : s0 + a * x + b + u32 (primeX6 x + c) = s0 + (a + 3) * x + (b + c) := by
        simp only [Op.const] at h0
        simp only [primeX6, u32, Nat.add_mul]
        omega
      have e : execOps x (Op.inc c :: r) (s0 + a * x + b, m)
          = execOps x r (s0 + a * x + b + u32 (primeX6 x + c), m) := rfl
      rw [e, e2, ih (a + 3) (b + c) _ hr]
      simp only [symEnd, symHits]

theorem fastLoopOf_cases (w c : Nat) (body : List Op) (h : fastLoopOf w = some (c, body)) :
    w < 64 ∧ w % 8 = 0 := by
  unfold fastLoopOf at h
  split at h <;> first | omega | cases h

theorem fastLoopOf_sym : ∀ w, w < 64 → ∀ c body, fastLoopOf w = some (c, body) →
    (∀ op ∈ body, op.const ≤ 14) ∧ symEnd body (0, 0) = (15, c) ∧ c = groupAdd (w / 8) ∧
    symHits body (0, 0) =
      (List.range 8).map fun j => (coefSum (w + 1) j, addSum (w + 1) j, bitOf (caseAt (w + 1) j)) := by
  intro w hw
  interval_cases w <;> intro c body h <;> simp [fastLoopOf] at h <;>
    obtain ⟨rfl, rfl⟩ := h <;> decide

/-! ## The switch as a sequence of single steps -/

theorem fast_body (x w c : Nat) (body : List Op) (hx : NoWrap x)
    (h : fastLoopOf w = some (c, body)) (s : Nat) (m : Mem) :
    execOps x body (s, m) = (pos x (w + 1) s 8, m.applyHits (hits x (w + 1) s 8)) ∧
    (s + c) + u32 (primeX6 x * 5) = pos x (w + 1) s 8 := by
  obtain ⟨hw, hw8⟩ := fastLoopOf_cases w c body h
  obtain ⟨hc, he, hg, hh⟩ := fastLoopOf_sym w hw c body h
  have hw1 : w + 1 < 64 := by omega
  have h8 := pos_eight x (w + 1) s hx hw1
  have hdiv : (w + 1) / 8 = w / 8 := by omega
  constructor
  · have e := execOps_sym x s hx body 0 0 m hc
    simp only [Nat.zero_mul, Nat.add_zero] at e
    have e1 : pos x (w + 1) s 8 = s + 15 * x + c := by rw [h8, hdiv, ← hg]
    have e2 : hits x (w + 1) s 8 = (symHits body (0, 0)).map fun h => (s + h.1 * x + h.2.1, h.2.2) := by
      rw [hh]
      simp only [hits, List.map_map]
      apply List.map_congr_left
      intro j _
      simp only [Function.comp, pos_lin x (w + 1) s hx hw1 j]
    rw [e, he, e1, e2]
  · rw [h8, hdiv, ← hg]
    unfold NoWrap at hx
    simp only [primeX6, u32]
    omega

theorem exitAt_shift (x sieveSize w s n : Nat) (h : ExitAt x sieveSize w s (n + 1))
    (h1 : pos x w s 1 < sieveSize) : ExitAt x sieveSize (fallThrough w) (s + adv x w) n := by
  obtain ⟨_, hlt, hge⟩ := h
  have hn : 1 ≤ n := by
    rcases Nat.eq_zero_or_pos n with h0 | h0
    · subst h0
      simp only [Nat.zero_add] at hge
      omega
    · exact h0
  refine ⟨hn, ?_, ?_⟩
  · intro j hj1 hj2
    rw [← pos_shift]
    exact hlt (j + 1) (by omega) (by omega)
  · rw [← pos_shift]; exact hge

theorem exitAt_one (x sieveSize w s n : Nat) (h : ExitAt x sieveSize w s n)
    (h1 : sieveSize ≤ pos x w s 1) : n = 1 := by
  obtain ⟨hn, hlt, _⟩ := h
  by_contra hne
  have := hlt 1 (Nat.le_refl 1) (by omega)
  omega

theorem exitAt_skip (x sieveSize w s n a : Nat) (h : ExitAt x sieveSize w s n)
    (ha : pos x w s a < sieveSize) : a < n ∧ ExitAt x sieveSize (caseAt w a) (pos x w s a) (n - a) := by
  obtain ⟨hn, hlt, hge⟩ := h
  have han : a < n := by
    by_contra hc
    have := pos_mono x w s (Nat.le_of_not_lt hc)
    omega
  refine ⟨han, by omega, ?_, ?_⟩
  · intro j hj1 hj2
    rw [← pos_add]
    exact hlt (a + j) (by omega) (by omega)
  · rw [← pos_add]
    have e : a + (n - a) = n := by omega
    rw [e]; exact hge

theorem fastLoop_done (x sieveSize c : Nat) (body : List Op) (fuel s : Nat) (m : Mem)
    (h : ¬ ((s + c) + u32 (primeX6 x * 5) < sieveSize)) :
    fastLoop x sieveSize c body fuel s m = some (s, m) := by
  cases fuel <;> simp [fastLoop, h]

theorem fastLoop_eq (x sieveSize w c : Nat) (body : List Op) (hx : NoWrap x)
    (h : fastLoopOf w = some (c, body)) :
    ∀ fuel n s m, ExitAt x sieveSize (w + 1) s n → s < sieveSize → n ≤ fuel →
    ∃ t, 8 * t < n ∧ pos x (w + 1) s (8 * t) < sieveSize ∧
      fastLoop x sieveSize c body fuel s m
        = some (pos x (w + 1) s (8 * t), m.applyHits (hits x (w + 1) s (8 * t))) := by
  intro fuel
  induction fuel with
  | zero =>
    intro n s m hex _ hn
    have := hex.1
    omega
  | succ f ih =>
    intro n s m hex hs hn
    obtain ⟨hb, hc⟩ := fast_body x w c body hx h s m
    by_cases hcond : (s + c) + u32 (primeX6 x * 5) < sieveSize
    · rw [hc] at hcond
      obtain ⟨h8n, hex8⟩ := exitAt_skip x sieveSize (w + 1) s n 8 hex hcond
      have hc8 : caseAt (w + 1) 8 = w + 1 := caseAt_eight (w + 1) 1
      rw [hc8] at hex8
      obtain ⟨t, ht, hlt, hres⟩ := ih (n - 8) (pos x (w + 1) s 8)
        (m.applyHits (hits x (w + 1) s 8)) hex8 hcond (by omega)
      refine ⟨t + 1, by omega, ?_, ?_⟩
      · have e : 8 * (t + 1) = 8 + 8 * t := by omega
        rw [e, pos_add, hc8]; exact hlt
      · have hcond2 : (s + c) + u32 (primeX6 x * 5) < sieveSize := by rw [hc]; exact hcond
        have e : 8 * (t + 1) = 8 + 8 * t := by omega
        rw [fastLoop, if_pos hcond2, hb, hres, e, pos_add, hits_add, hc8, applyHits_append]
    · refine ⟨0, by have := hex.1; omega, by simpa [pos] using hs, ?_⟩
      rw [fastLoop_done x sieveSize c body _ s m hcond]
      simp [pos, hits_zero, applyHits_nil]

theorem crossOff_eq (x sieveSize : Nat) (hx : NoWrap x) :
    ∀ fuel n w s m, w < 64 → ExitAt x sieveSize w s n → n ≤ fuel →
    crossOff x sieveSize fuel w s m
      = some (pos x w s n, caseAt w n, m.applyHits (hits x w s n)) := by
  intro fuel
  induction fuel with
  | zero =>
    intro n w s m _ hex hn
    have := hex.1
    omega
  | succ f ih =>
    intro n w s m hw hex hn
    obtain ⟨st, hst⟩ := wheelStep_isSome w hw
    have hnext := step_next w hw st hst
    have hadv : u32 (st.mult.val x + st.add) = adv x w := by simp [adv, hst]
    have hbit : st.bit = bitOf w := by simp [bitOf, hst]
    have hp1 : pos x w s 1 = s + adv x w := by simp [pos, caseAt_zero]
    have hh1 : hits x w s 1 = [(s, bitOf w)] := by
      rw [hits_shift]; simp [hits_zero]
    have hn1 : 1 ≤ n := hex.1
    have en : n = (n - 1) + 1 := by omega
    -- result when the first step already leaves the segment
    have hexit : sieveSize ≤ s + adv x w →
        some (s + adv x w, st.next, m.andAt s (bitOf w))
          = some (pos x w s n, caseAt w n, m.applyHits (hits x w s n)) := by
      intro hge
      have h1 := exitAt_one x sieveSize w s n hex (by rw [hp1]; exact hge)
      subst h1
      rw [hp1, hh1, hnext, fallThrough_eq]
      rfl
    -- result when the steps continue from the next case
    have hcont : ∀ k, k < n → pos x w s k < sieveSize → 1 ≤ k →
        crossOff x sieveSize f (caseAt w k) (pos x w s k) (m.applyHits (hits x w s k))
          = some (pos x w s n, caseAt w n, m.applyHits (hits x w s n)) := by
      intro k hk hlt _
      obtain ⟨_, hex2⟩ := exitAt_skip x sieveSize w s n k hex hlt
      rw [ih (n - k) (caseAt w k) (pos x w s k) _ (caseAt_lt w k hw) hex2 (by omega)]
      have e : k + (n - k) = n := by omega
      rw [← pos_add, caseAt_caseAt, ← applyHits_append, ← hits_add, e]
    rw [crossOff, hst]
    simp only [hadv, hbit]
    cases hfl : fastLoopOf w with
    | none =>
      simp only
      by_cases hge : sieveSize ≤ s + adv x w
      · rw [if_pos hge]; exact hexit hge
      · rw [if_neg hge]
        have hlt : pos x w s 1 < sieveSize := by rw [hp1]; omega
        have hn2 : 1 < n := by
          have := (exitAt_skip x sieveSize w s n 1 hex hlt).1
          exact this
        have := hcont 1 hn2 hlt (Nat.le_refl 1)
        rw [hp1, hh1, ← fallThrough_eq] at this
        exact this
    | some cb =>
      obtain ⟨c, body⟩ := cb
      simp only
      obtain ⟨_, hw8⟩ := fastLoopOf_cases w c body hfl
      have hft : fallThrough w = w + 1 := by unfold fallThrough; split <;> omega
      by_cases hge : sieveSize ≤ s + adv x w
      · have hnc : ¬ ((s + adv x w + c) + u32 (primeX6 x * 5) < sieveSize) := by omega
        rw [fastLoop_done x sieveSize c body f _ _ hnc]
        simp only
        rw [if_pos hge]; exact hexit hge
      · have hlt : pos x w s 1 < sieveSize := by rw [hp1]; omega
        obtain ⟨hn2, hex1⟩ := exitAt_skip x sieveSize w s n 1 hex hlt
        rw [← fallThrough_eq, hft, hp1] at hex1
        obtain ⟨t, ht, hlt2, hres⟩ := fastLoop_eq x sieveSize w c body hx hfl f (n - 1)
          (s + adv x w) (m.andAt s (bitOf w)) hex1 (by omega) (by omega)
        rw [hres]
        simp only
        rw [if_neg (by omega)]
        have hk := hcont (1 + 8 * t) (by omega) (by
          rw [pos_add, ← fallThrough_eq, hft, hp1]; exact hlt2) (by omega)
        rw [pos_add, hits_add, ← caseAt_caseAt, caseAt_eight, ← fallThrough_eq, hp1, hh1,
          applyHits_append] at hk
        rw [hft] at hk ⊢
        exact hk

/-! ## The loops over the buckets -/

theorem pos_grow (x w s : Nat) (hx : NoWrap x) (hw : w < 64) :
    ∀ t, s + t ≤ pos x w s (8 * t) := by
  intro t
  induction t with
  | zero => simp [pos]
  | succ t ih =>
    have e : 8 * (t + 1) = 8 * t + 8 := by omega
    rw [e, pos_add, caseAt_eight, pos_eight x w _ hx hw]
    have := groupAdd_pos (w / 8)
    omega

theorem exitIndex_spec (x sieveSize w s : Nat) (hx : NoWrap x) (hw : w < 64) :
    ExitAt x sieveSize w s (exitIndex x sieveSize w s) ∧
      exitIndex x sieveSize w s ≤ 8 * (sieveSize - s) + 8 := by
  have hex : ∃ n, n < 8 * (sieveSize - s) + 9 ∧ (1 ≤ n ∧ sieveSize ≤ pos x w s n) := by
    refine ⟨8 * (sieveSize - s + 1), by omega, by omega, ?_⟩
    have := pos_grow x w s hx hw (sieveSize - s + 1)
    omega
  unfold exitIndex
  rw [dif_pos hex]
  have hs := Nat.find_spec hex
  refine ⟨⟨hs.2.1, ?_, hs.2.2⟩, by omega⟩
  intro j hj1 hj2
  have hm := Nat.find_min hex hj2
  by_contra hc
  exact hm ⟨by omega, hj1, by omega⟩

theorem exitAt_unique (x sieveSize w s a b : Nat) (ha : ExitAt x sieveSize w s a)
    (hb : ExitAt x sieveSize w s b) : a = b := by
  obtain ⟨ha1, ha2, ha3⟩ := ha
  obtain ⟨hb1, hb2, hb3⟩ := hb
  rcases Nat.lt_trichotomy a b with h | h | h
  · have := hb2 a ha1 h; omega
  · exact h
  · have := ha2 b hb1 h; omega

theorem sievePrime_eq (fuel sieveSize : Nat) (wp : WheelPrime) (m : Mem) (hv : Valid wp)
    (hf : 8 * sieveSize + 8 ≤ fuel) :
    sievePrime fuel sieveSize wp m
      = some (primeNext sieveSize wp, m.applyHits (primeHits sieveSize wp)) := by
  obtain ⟨hw, hx⟩ := hv
  obtain ⟨hex, hle⟩ := exitIndex_spec wp.sievingPrime sieveSize wp.wheelIndex wp.sieveIndex hx hw
  unfold sievePrime
  rw [crossOff_eq wp.sievingPrime sieveSize hx fuel _ wp.wheelIndex wp.sieveIndex m hw hex
    (by omega)]
  rfl

theorem sieveBucket_eq (fuel sieveSize : Nat) (hf : 8 * sieveSize + 8 ≤ fuel) :
    ∀ (bucket : Bucket) (m : Mem), (∀ wp ∈ bucket, Valid wp) →
    sieveBucket fuel sieveSize bucket m
      = some (bucket.map (primeNext sieveSize),
          m.applyHits (bucket.flatMap (primeHits sieveSize))) := by
  intro bucket
  induction bucket with
  | nil => intro m _; rfl
  | cons wp rest ih =>
    intro m hv
    rw [sieveBucket, sievePrime_eq fuel sieveSize wp m (hv wp (List.mem_cons_self _ _)) hf]
    simp only
    rw [ih _ (fun w hw => hv w (List.mem_cons_of_mem _ hw))]
    simp only [List.map_cons, List.flatMap_cons, applyHits_append]

theorem sieve_eq (fuel sieveSize : Nat) (hf : 8 * sieveSize + 8 ≤ fuel) :
    ∀ (buckets : List Bucket) (m : Mem), (∀ b ∈ buckets, ∀ wp ∈ b, Valid wp) →
    sieve fuel sieveSize buckets m
      = some (buckets.map (List.map (primeNext sieveSize)),
          m.applyHits (buckets.flatten.flatMap (primeHits sieveSize))) := by
  intro buckets
  induction buckets with
  | nil => intro m _; rfl
  | cons b rest ih =>
    intro m hv
    rw [sieve, sieveBucket_eq fuel sieveSize hf b m (hv b (List.mem_cons_self _ _))]
    simp only
    rw [ih _ (fun c hc => hv c (List.mem_cons_of_mem _ hc))]
    simp only [List.map_cons, List.flatten_cons, List.flatMap_append, applyHits_append]

/-! ## Masks and bits -/

theorem testBit_255 (b : Nat) : Nat.testBit 255 b = decide (b < 8) := by
  by_cases hb : b < 8
  · interval_cases b <;> rfl
  · have h1 : 255 < 2 ^ b :=
      Nat.lt_of_lt_of_le (show 255 < 2 ^ 8 by decide) (Nat.pow_le_pow_right (by omega) (by omega))
    rw [Nat.testBit_lt_two_pow h1]
    simp [hb]

theorem testBit_BIT (k b : Nat) (hk : k < 8) :
    (BIT k).testBit b = (decide (b < 8) && decide (b ≠ k)) := by
  by_cases hb : b < 8
  · interval_cases k <;> interval_cases b <;> decide
  · have h1 : BIT k < 2 ^ b := by
      have h2 : BIT k < 2 ^ 8 := by
        unfold BIT
        have : 0 < 2 ^ k := Nat.two_pow_pos k
        omega
      exact Nat.lt_of_lt_of_le h2 (Nat.pow_le_pow_right (by omega) (by omega))
    rw [Nat.testBit_lt_two_pow h1]
    simp [hb]

theorem BIT_lt (k : Nat) : BIT k < 256 := by
  unfold BIT
  have : 0 < 2 ^ k := Nat.two_pow_pos k
  omega

theorem applyHits_log (hs : List (Nat × Nat)) : ∀ m : Mem, (m.applyHits hs).log = m.log ++ hs := by
  induction hs with
  | nil => intro m; simp [applyHits_nil]
  | cons h r ih =>
    intro m
    rw [applyHits_cons, ih]
    simp [Mem.andAt]

theorem applyHits_bytes (hs : List (Nat × Nat)) : ∀ (m : Mem) (i : Nat), m.bytes i < 256 →
    (m.applyHits hs).bytes i = m.bytes i &&& maskAt i hs := by
  induction hs with
  | nil =>
    intro m i hi
    rw [applyHits_nil]
    apply Nat.eq_of_testBit_eq
    intro j
    rw [Nat.testBit_land]
    by_cases hj : j < 8
    · simp [maskAt, testBit_255, hj]
    · have h1 : m.bytes i < 2 ^ j :=
        Nat.lt_of_lt_of_le (show m.bytes i < 2 ^ 8 from hi) (Nat.pow_le_pow_right (by omega) (by omega))
      rw [Nat.testBit_lt_two_pow h1]
      simp
  | cons h r ih =>
    intro m i hi
    rw [applyHits_cons]
    by_cases e : h.1 = i
    · have hb : (m.andAt h.1 h.2).bytes i = m.bytes i &&& BIT h.2 := by
        simp [Mem.andAt, e]
      have hlt : (m.andAt h.1 h.2).bytes i < 256 := by
        rw [hb]
        exact Nat.lt_of_le_of_lt Nat.and_le_left hi
      rw [ih _ i hlt, hb, maskAt, if_pos e, Nat.land_assoc]
    · have hb : (m.andAt h.1 h.2).bytes i = m.bytes i := by
        simp only [Mem.andAt]
        rw [if_neg (fun h' => e h'.symm)]
      rw [ih _ i (by rw [hb]; exact hi), hb, maskAt, if_neg e]

theorem testBit_maskAt (i b : Nat) : ∀ hs : List (Nat × Nat), (∀ h ∈ hs, h.2 < 8) →
    (maskAt i hs).testBit b = (decide (b < 8) && decide ((i, b) ∉ hs)) := by
  intro hs
  induction hs with
  | nil =>
    intro _
    simp [maskAt, testBit_255]
  | cons h r ih =>
    intro hk
    have ihr := ih (fun a ha => hk a (List.mem_cons_of_mem _ ha))
    have hk0 := hk h (List.mem_cons_self _ _)
    by_cases e : h.1 = i
    · rw [maskAt, if_pos e, Nat.testBit_land, ihr, testBit_BIT _ _ hk0]
      have key : (i, b) = h ↔ b = h.2 := by
        constructor
        · intro h'; rw [← h']
        · intro h'; exact Prod.ext e.symm h'
      rw [Bool.eq_iff_iff]
      simp only [Bool.and_eq_true, decide_eq_true_eq, List.mem_cons, not_or, key]
      tauto
    · rw [maskAt, if_neg e, ihr]
      have : (i, b) ≠ h := fun h' => e (by rw [← h'])
      simp [List.mem_cons, this]

/-! ## The wheel: finite facts -/

theorem groupOf_res : ∀ r, r < 30 → Nat.Coprime r 30 →
    (match r with
      | 7 => 0 | 11 => 1 | 13 => 2 | 17 => 3 | 19 => 4 | 23 => 5 | 29 => 6 | 1 => 7 | _ => 8) < 8 ∧
    r % 15 = groupAdd (match r with
      | 7 => 0 | 11 => 1 | 13 => 2 | 17 => 3 | 19 => 4 | 23 => 5 | 29 => 6 | 1 => 7 | _ => 8) ∧
    r = groupRes (match r with
      | 7 => 0 | 11 => 1 | 13 => 2 | 17 => 3 | 19 => 4 | 23 => 5 | 29 => 6 | 1 => 7 | _ => 8) := by
  decide

theorem groupOf_spec (p : Nat) (hp : Nat.Coprime p 30) :
    groupOf p < 8 ∧ p % 15 = groupAdd (groupOf p) ∧ p % 30 = groupRes (groupOf p) := by
  have hr : Nat.Coprime (p % 30) 30 := by
    have := (Nat.coprime_add_mul_left_left (p % 30) 30 (p / 30)).symm
    rw [Nat.mod_add_div] at this
    exact this.mpr hp
  have h := groupOf_res (p % 30) (Nat.mod_lt _ (by omega)) hr
  have e : p % 15 = p % 30 % 15 := by omega
  rw [e]
  exact h

theorem stepCoef_pos : ∀ w, w < 64 → 1 ≤ stepCoef w := by decide

theorem bitOf_lt : ∀ w, w < 64 → bitOf w < 8 := by decide

theorem step_number : ∀ w, w < 64 →
    30 * stepAdd w + bitValue (bitOf (fallThrough w))
      = bitValue (bitOf w) + 2 * stepCoef w * groupAdd (w / 8) := by
  decide

theorem gap_table : ∀ w, w < 64 → ∀ r, r < 30 →
    (groupRes (w / 8) * r) % 30 = bitValue (bitOf w) % 30 → gapCheck w r = true := by
  decide

theorem gap_free (w r d : Nat) (hw : w < 64) (hr : r < 30)
    (h : (groupRes (w / 8) * r) % 30 = bitValue (bitOf w) % 30)
    (hd : d < 2 * stepCoef w) (hd0 : 0 < d) : ¬ Nat.Coprime (r + d) 30 := by
  have ht := gap_table w hw r hr h
  unfold gapCheck at ht
  rw [List.all_eq_true] at ht
  have := ht d (List.mem_range.mpr hd)
  simp only [Bool.or_eq_true, beq_iff_eq, bne_iff_ne, ne_eq] at this
  rcases this with h0 | h1
  · omega
  · exact h1

/-! ## Multiples along the wheel -/

theorem bitValue_bounds (b : Nat) : 7 ≤ bitValue b ∧ bitValue b ≤ 31 := by
  unfold bitValue
  split <;> omega

theorem bitValue_inj : ∀ a, a < 8 → ∀ b, b < 8 → bitValue a = bitValue b → a = b := by
  decide

theorem number_inj (i j a b : Nat) (ha : a < 8) (hb : b < 8) (h : number i a = number j b) :
    i = j ∧ a = b := by
  unfold number at h
  have h1 := bitValue_bounds a
  have h2 := bitValue_bounds b
  have hij : i = j := by omega
  subst hij
  exact ⟨rfl, bitValue_inj a ha b hb (by omega)⟩

theorem bitValue_coprime : ∀ b, b < 8 → Nat.Coprime (bitValue b) 30 := by decide

theorem number_coprime (i b : Nat) (hb : b < 8) : Nat.Coprime (number i b) 30 := by
  unfold number
  rw [Nat.add_comm, Nat.coprime_add_mul_left_left]
  exact bitValue_coprime b hb

theorem coefSum_shift (w : Nat) : ∀ n, coefSum w (n + 1) = stepCoef w + coefSum (fallThrough w) n := by
  intro n
  induction n with
  | zero => simp [coefSum, caseAt_zero]
  | succ n ih =>
    rw [coefSum, ih, coefSum, fallThrough_eq, caseAt_caseAt, Nat.add_comm 1 n]
    omega

theorem coefSum_mono (w : Nat) {a b : Nat} (h : a ≤ b) : coefSum w a ≤ coefSum w b := by
  induction h with
  | refl => exact Nat.le_refl _
  | step _ ih => rw [coefSum]; omega

theorem coefSum_strict (w a b : Nat) (hw : w < 64) (h : a < b) : coefSum w a < coefSum w b := by
  have h1 : coefSum w a < coefSum w (a + 1) := by
    rw [coefSum]
    have := stepCoef_pos (caseAt w a) (caseAt_lt w a hw)
    omega
  exact Nat.lt_of_lt_of_le h1 (coefSum_mono w h)

theorem inGroup_lt (p w : Nat) (h : InGroup p w) : w < 64 := by
  obtain ⟨hc, _, hg⟩ := h
  have := (groupOf_spec p hc).1
  omega

theorem inGroup_noWrap (p w : Nat) (h : InGroup p w) : NoWrap (p / 15) := by
  obtain ⟨_, hp, _⟩ := h
  unfold NoWrap
  omega

theorem inGroup_caseAt (p w n : Nat) (h : InGroup p w) : InGroup p (caseAt w n) := by
  obtain ⟨hc, hp, hg⟩ := h
  refine ⟨hc, hp, ?_⟩
  rw [← hg]
  unfold caseAt
  omega

theorem number_step (p w s : Nat) (h : InGroup p w) :
    number (s + adv (p / 15) w) (bitOf (fallThrough w))
      = number s (bitOf w) + p * (2 * stepCoef w) := by
  have hw := inGroup_lt p w h
  have hx := inGroup_noWrap p w h
  obtain ⟨hc, hp, hg⟩ := h
  have hd := (groupOf_spec p hc).2.1
  rw [← hg] at hd
  have ht := step_number w hw
  have h1 := stepCoef_le w hw
  have h0 := stepCoef_pos w hw
  rw [adv_eq _ w hx hw]
  unfold number
  have hp15 : p = 15 * (p / 15) + p % 15 := (Nat.div_add_mod p 15).symm
  generalize stepCoef w = c at *
  generalize p / 15 = x at *
  generalize groupAdd (w / 8) = dl at *
  rw [hd] at hp15
  rw [hp15]
  interval_cases c <;> omega

theorem number_pos (p w s : Nat) (h : InGroup p w) : ∀ n,
    number (pos (p / 15) w s n) (bitOf (caseAt w n))
      = number s (bitOf w) + p * (2 * coefSum w n) := by
  intro n
  induction n with
  | zero => simp [pos, caseAt_zero, coefSum]
  | succ n ih =>
    have hs := number_step p (caseAt w n) (pos (p / 15) w s n) (inGroup_caseAt p w n h)
    rw [fallThrough_eq, caseAt_caseAt] at hs
    rw [pos, hs, ih, coefSum, Nat.mul_add, Nat.mul_add, Nat.add_assoc]

theorem cofactor_res (p w s f : Nat) (h : InGroup p w) (hf : number s (bitOf w) = p * f) :
    (groupRes (w / 8) * (f % 30)) % 30 = bitValue (bitOf w) % 30 := by
  obtain ⟨hc, hp, hg⟩ := h
  have hr := (groupOf_spec p hc).2.2
  rw [hg, ← hr, ← Nat.mul_mod, ← hf]
  unfold number
  omega

theorem no_coprime_between (p w s f d : Nat) (h : InGroup p w)
    (hf : number s (bitOf w) = p * f) (hd0 : 0 < d) (hd : d < 2 * stepCoef w) :
    ¬ Nat.Coprime (f + d) 30 := by
  have hw := inGroup_lt p w h
  have hres := cofactor_res p w s f h hf
  have hg := gap_free w (f % 30) d hw (Nat.mod_lt _ (by omega)) hres hd hd0
  intro hcop
  apply hg
  have e : f + d = (f % 30 + d) + 30 * (f / 30) := by omega
  rw [e, Nat.coprime_add_mul_left_left] at hcop
  exact hcop

theorem cover (p : Nat) : ∀ d w s f, InGroup p w → number s (bitOf w) = p * f →
    Nat.Coprime (f + d) 30 → ∃ n, f + d = f + 2 * coefSum w n := by
  intro d
  induction d using Nat.strong_induction_on with
  | _ d ih =>
    intro w s f h hf hcop
    rcases Nat.eq_zero_or_pos d with h0 | h0
    · exact ⟨0, by simp [h0, coefSum]⟩
    · have hge : 2 * stepCoef w ≤ d := by
        by_contra hlt
        exact no_coprime_between p w s f d h hf h0 (by omega) hcop
      have hw := inGroup_lt p w h
      have hpos := stepCoef_pos w hw
      have hstep := number_step p w s h
      rw [hf, ← Nat.mul_add] at hstep
      have h1 := inGroup_caseAt p w 1 h
      rw [← fallThrough_eq] at h1
      have e : f + d = (f + 2 * stepCoef w) + (d - 2 * stepCoef w) := by omega
      rw [e] at hcop
      obtain ⟨n, hn⟩ := ih (d - 2 * stepCoef w) (by omega) (fallThrough w) _ _ h1 hstep hcop
      refine ⟨n + 1, ?_⟩
      rw [coefSum_shift]
      omega

/-! ## Accesses of one sieving prime -/

theorem pointsAt_inGroup (p sieveSize : Nat) (wp : WheelPrime) (h : PointsAt p sieveSize wp) :
    InGroup p wp.wheelIndex := ⟨h.2.1, h.2.2.1, h.2.2.2.2.1⟩

theorem pointsAt_valid (p sieveSize : Nat) (wp : WheelPrime) (h : PointsAt p sieveSize wp) :
    Valid wp := by
  have hg := pointsAt_inGroup p sieveSize wp h
  refine ⟨inGroup_lt p _ hg, ?_⟩
  rw [h.2.2.2.1]
  exact inGroup_noWrap p _ hg

theorem andAt_testBit (m : Mem) (i k j b : Nat)
    (h : ((m.andAt i k).bytes j).testBit b = true) : (m.bytes j).testBit b = true := by
  simp only [Mem.andAt] at h
  by_cases e : j = i
  · rw [if_pos e, Nat.testBit_land, Bool.and_eq_true] at h
    exact h.1
  · rw [if_neg e] at h
    exact h

theorem applyHits_testBit (hs : List (Nat × Nat)) : ∀ (m : Mem) (j b : Nat),
    ((m.applyHits hs).bytes j).testBit b = true → (m.bytes j).testBit b = true := by
  induction hs with
  | nil => intro m j b h; exact h
  | cons h r ih =>
    intro m j b hb
    rw [applyHits_cons] at hb
    exact andAt_testBit m h.1 h.2 j b (ih _ j b hb)

theorem applyHits_cleared (hs : List (Nat × Nat)) : ∀ (m : Mem) (i k : Nat), (i, k) ∈ hs → k < 8 →
    ((m.applyHits hs).bytes i).testBit k = false := by
  induction hs with
  | nil => intro m i k h; cases h
  | cons h r ih =>
    intro m i k hm hk
    rw [applyHits_cons]
    rcases List.mem_cons.mp hm with e | e
    · subst e
      have h0 : (((m.andAt i k).bytes i).testBit k) = false := by
        simp [Mem.andAt, Nat.testBit_land, testBit_BIT k k hk]
      by_contra hc
      rw [Bool.not_eq_false] at hc
      rw [applyHits_testBit r _ i k hc] at h0
      cases h0
    · exact ih _ i k e hk

theorem applyHits_frame (hs : List (Nat × Nat)) : ∀ (m : Mem) (i : Nat), (∀ h ∈ hs, h.1 ≠ i) →
    (m.applyHits hs).bytes i = m.bytes i := by
  induction hs with
  | nil => intro m i _; rfl
  | cons h r ih =>
    intro m i hne
    rw [applyHits_cons, ih _ i (fun a ha => hne a (List.mem_cons_of_mem _ ha))]
    have := hne h (List.mem_cons_self _ _)
    simp only [Mem.andAt]
    rw [if_neg (fun e => this e.symm)]

theorem applyHits_changed (hs : List (Nat × Nat)) (m : Mem) (i k : Nat) (hi : m.bytes i < 256)
    (hk : ∀ h ∈ hs, h.2 < 8) (h1 : (m.bytes i).testBit k = true)
    (h0 : ((m.applyHits hs).bytes i).testBit k = false) : k < 8 ∧ (i, k) ∈ hs := by
  have hk8 : k < 8 := by
    by_contra hc
    have h2 : m.bytes i < 2 ^ k :=
      Nat.lt_of_lt_of_le (show m.bytes i < 2 ^ 8 from hi) (Nat.pow_le_pow_right (by omega) (by omega))
    rw [Nat.testBit_lt_two_pow h2] at h1
    cases h1
  refine ⟨hk8, ?_⟩
  rw [applyHits_bytes hs m i hi, Nat.testBit_land, h1, testBit_maskAt i k hs hk] at h0
  by_contra hc
  simp [hk8, hc] at h0

theorem mem_hits (x w s n : Nat) (h : Nat × Nat) :
    h ∈ hits x w s n ↔ ∃ j, j < n ∧ h = (pos x w s j, bitOf (caseAt w j)) := by
  simp only [hits, List.mem_map, List.mem_range]
  constructor
  · rintro ⟨j, hj, rfl⟩; exact ⟨j, hj, rfl⟩
  · rintro ⟨j, hj, rfl⟩; exact ⟨j, hj, rfl⟩

theorem primeHits_bounds (sieveSize : Nat) (wp : WheelPrime) (hv : Valid wp)
    (hs : wp.sieveIndex < sieveSize) : ∀ h ∈ primeHits sieveSize wp, h.1 < sieveSize ∧ h.2 < 8 := by
  intro h hh
  obtain ⟨hw, hx⟩ := hv
  obtain ⟨⟨_, hlt, _⟩, _⟩ := exitIndex_spec wp.sievingPrime sieveSize wp.wheelIndex wp.sieveIndex hx hw
  obtain ⟨j, hj, rfl⟩ := (mem_hits _ _ _ _ h).mp hh
  refine ⟨?_, bitOf_lt _ (caseAt_lt _ _ hw)⟩
  rcases Nat.eq_zero_or_pos j with h0 | h0
  · subst h0; exact hs
  · exact hlt j h0 hj

theorem primeHits_multiple (p sieveSize : Nat) (wp : WheelPrime) (hp : PointsAt p sieveSize wp) :
    ∀ h ∈ primeHits sieveSize wp, p ∣ number h.1 h.2 := by
  intro h hh
  obtain ⟨j, _, rfl⟩ := (mem_hits _ _ _ _ h).mp hh
  have hg := pointsAt_inGroup p sieveSize wp hp
  have hn := number_pos p wp.wheelIndex wp.sieveIndex hg j
  rw [← hp.2.2.2.1] at hn
  show p ∣ number (pos wp.sievingPrime wp.wheelIndex wp.sieveIndex j) (bitOf (caseAt wp.wheelIndex j))
  rw [hn]
  exact Dvd.dvd.add hp.2.2.2.2.2.2 (Dvd.intro _ rfl)

/-- Every multiple `p * f` of the segment, `f` coprime to 30, from the entry
multiple on, is among the accesses made for `p`. -/
theorem primeHits_cover (p sieveSize : Nat) (wp : WheelPrime) (hp : PointsAt p sieveSize wp)
    (i k f : Nat) (hi : i < sieveSize) (hk : k < 8) (hf : Nat.Coprime f 30)
    (hn : number i k = p * f) (hm : number wp.sieveIndex (bitOf wp.wheelIndex) ≤ p * f) :
    (i, k) ∈ primeHits sieveSize wp := by
  have hg := pointsAt_inGroup p sieveSize wp hp
  have hv := pointsAt_valid p sieveSize wp hp
  have hw := hv.1
  obtain ⟨f0, hf0⟩ := hp.2.2.2.2.2.2
  have hp0 : 0 < p := by have := hp.1; omega
  have hle : f0 ≤ f := by
    rw [hf0] at hm
    exact Nat.le_of_mul_le_mul_left hm hp0
  have e : f = f0 + (f - f0) := by omega
  rw [e] at hf
  obtain ⟨n, hn2⟩ := cover p (f - f0) wp.wheelIndex wp.sieveIndex f0 hg hf0 hf
  have hnum := number_pos p wp.wheelIndex wp.sieveIndex hg n
  rw [hf0, ← Nat.mul_add, ← hn2, ← e, ← hn, ← hp.2.2.2.1] at hnum
  obtain ⟨e1, e2⟩ := number_inj _ _ _ _ (bitOf_lt _ (caseAt_lt _ n hw)) hk hnum
  obtain ⟨⟨_, _, hge⟩, _⟩ := exitIndex_spec wp.sievingPrime sieveSize wp.wheelIndex wp.sieveIndex hv.2 hw
  have hlt : n < exitIndex wp.sievingPrime sieveSize wp.wheelIndex wp.sieveIndex := by
    by_contra hc
    have := pos_mono wp.sievingPrime wp.wheelIndex wp.sieveIndex (Nat.le_of_not_lt hc)
    omega
  exact (mem_hits _ _ _ _ _).mpr ⟨n, hlt, by rw [e1, e2]⟩

/-! ## Claims about the crossing-off -/

theorem maskAt_eq_andMasks (i : Nat) : ∀ hs : List (Nat × Nat), (∀ h ∈ hs, h.2 < 8) →
    ∃ ks : List Nat, (∀ k ∈ ks, k < 8) ∧ maskAt i hs = andMasks ks := by
  intro hs
  induction hs with
  | nil => intro _; exact ⟨[], by simp, rfl⟩
  | cons h r ih =>
    intro hk
    obtain ⟨ks, hks, e⟩ := ih (fun a ha => hk a (List.mem_cons_of_mem _ ha))
    by_cases hi : h.1 = i
    · refine ⟨h.2 :: ks, ?_, ?_⟩
      · intro k hkm
        rcases List.mem_cons.mp hkm with e1 | e1
        · rw [e1]; exact hk h (List.mem_cons_self _ _)
        · exact hks k e1
      · rw [maskAt, if_pos hi, e, andMasks]
    · exact ⟨ks, hks, by rw [maskAt, if_neg hi, e]⟩

theorem mem_allHits (sieveSize : Nat) (buckets : List Bucket) (h : Nat × Nat) :
    h ∈ buckets.flatten.flatMap (primeHits sieveSize) ↔
      ∃ b ∈ buckets, ∃ wp ∈ b, h ∈ primeHits sieveSize wp := by
  simp only [List.mem_flatMap, List.mem_flatten]
  constructor
  · rintro ⟨wp, ⟨b, hb, hwp⟩, hh⟩; exact ⟨b, hb, wp, hwp, hh⟩
  · rintro ⟨b, hb, wp, hwp, hh⟩; exact ⟨wp, ⟨b, hb, hwp⟩, hh⟩

/-- C1: `EratSmall::sieve` crosses off every multiple that lies in the segment. For
every sieving prime `p >= 7` coprime to 30 of the bucket list, stored as `p / 15` with
a wheel index of its group and an entry index inside the segment whose bit stands for a
multiple `m` of `p` (`PointsAt`), after `sieve` has returned, the bit of every number
`p * f` with `f` coprime to 30, `p * f >= m`, that lies in bytes `[0, sieveSize)` is 0.
Bit `k` of byte `i` is read as `30 * i + [7,11,13,17,19,23,29,31][k]`. -/
theorem sieve_crosses_off_every_multiple (fuel sieveSize : Nat) (buckets : List Bucket) (m : Mem)
    (hf : 8 * sieveSize + 8 ≤ fuel) (hv : ∀ b ∈ buckets, ∀ wp ∈ b, Valid wp) :
    ∃ r, sieve fuel sieveSize buckets m = some r ∧
      ∀ b ∈ buckets, ∀ wp ∈ b, ∀ p, PointsAt p sieveSize wp →
        ∀ i k f, i < sieveSize → k < 8 → Nat.Coprime f 30 → number i k = p * f →
          number wp.sieveIndex (bitOf wp.wheelIndex) ≤ p * f →
          (r.2.bytes i).testBit k = false := by
  refine ⟨_, sieve_eq fuel sieveSize hf buckets m hv, ?_⟩
  intro b hb wp hwp p hp i k f hi hk hcop hn hm
  apply applyHits_cleared _ m i k _ hk
  exact (mem_allHits sieveSize buckets (i, k)).mpr
    ⟨b, hb, wp, hwp, primeHits_cover p sieveSize wp hp i k f hi hk hcop hn hm⟩

/-- Witness of C1: the prime 7 entered at 49 in a segment of 10 bytes; 77 = 7 * 11,
bit 3 of byte 2, is crossed off. -/
theorem sieve_crosses_off_every_multiple_witness :
    ∃ r, sieve 88 10 [[⟨0, 1, 2⟩]] allSet = some r ∧ (r.2.bytes 2).testBit 3 = false := by
  obtain ⟨r, hr, h⟩ := sieve_crosses_off_every_multiple 88 10 [[⟨0, 1, 2⟩]] allSet
    (by decide) (by decide)
  exact ⟨r, hr, h [⟨0, 1, 2⟩] (by simp) ⟨0, 1, 2⟩ (by simp) 7 (by decide) 2 3 11
    (by decide) (by decide) (by decide) (by decide) (by decide)⟩

/-- C2: `EratSmall::sieve` only clears bits of multiples and never sets a bit. For
every bucket list whose entry states each point at a multiple of their own prime, every
output byte is the input byte AND a conjunction of masks `BITk`, every bit that is 1
before and 0 after lies in the segment and represents a multiple of one of the listed
primes, and every other bit is unchanged. -/
theorem sieve_only_clears_multiples (fuel sieveSize : Nat) (buckets : List Bucket) (m : Mem)
    (hf : 8 * sieveSize + 8 ≤ fuel) (hbytes : ∀ i, m.bytes i < 256)
    (hent : ∀ b ∈ buckets, ∀ wp ∈ b, ∃ p, PointsAt p sieveSize wp) :
    ∃ r, sieve fuel sieveSize buckets m = some r ∧
      (∀ i, ∃ ks : List Nat, (∀ k ∈ ks, k < 8) ∧ r.2.bytes i = m.bytes i &&& andMasks ks) ∧
      (∀ i k, (m.bytes i).testBit k = true → (r.2.bytes i).testBit k = false →
        i < sieveSize ∧ k < 8 ∧
          ∃ b ∈ buckets, ∃ wp ∈ b, ∃ p, PointsAt p sieveSize wp ∧ p ∣ number i k) ∧
      (∀ i k, ¬ ((m.bytes i).testBit k = true ∧ (r.2.bytes i).testBit k = false) →
        (r.2.bytes i).testBit k = (m.bytes i).testBit k) := by
  have hv : ∀ b ∈ buckets, ∀ wp ∈ b, Valid wp := by
    intro b hb wp hwp
    obtain ⟨p, hp⟩ := hent b hb wp hwp
    exact pointsAt_valid p sieveSize wp hp
  have hk : ∀ h ∈ buckets.flatten.flatMap (primeHits sieveSize), h.2 < 8 := by
    intro h hh
    obtain ⟨b, hb, wp, hwp, hh2⟩ := (mem_allHits sieveSize buckets h).mp hh
    obtain ⟨p, hp⟩ := hent b hb wp hwp
    exact (primeHits_bounds sieveSize wp (hv b hb wp hwp) hp.2.2.2.2.2.1 h hh2).2
  refine ⟨_, sieve_eq fuel sieveSize hf buckets m hv, ?_, ?_, ?_⟩
  · intro i
    obtain ⟨ks, hks, e⟩ := maskAt_eq_andMasks i _ hk
    exact ⟨ks, hks, by rw [applyHits_bytes _ m i (hbytes i), e]⟩
  · intro i k h1 h0
    obtain ⟨hk8, hmem⟩ := applyHits_changed _ m i k (hbytes i) hk h1 h0
    obtain ⟨b, hb, wp, hwp, hh2⟩ := (mem_allHits sieveSize buckets (i, k)).mp hmem
    obtain ⟨p, hp⟩ := hent b hb wp hwp
    exact ⟨(primeHits_bounds sieveSize wp (hv b hb wp hwp) hp.2.2.2.2.2.1 _ hh2).1, hk8,
      b, hb, wp, hwp, p, hp, primeHits_multiple p sieveSize wp hp _ hh2⟩
  · intro i k hn
    cases h1 : ((m.applyHits (buckets.flatten.flatMap (primeHits sieveSize))).bytes i).testBit k with
    | true => exact (applyHits_testBit _ m i k h1).symm
    | false =>
      cases h2 : (m.bytes i).testBit k with
      | false => rfl
      | true => exact absurd ⟨h2, h1⟩ hn

/-- Witness of C2: the primes 7 (entered at 49) and 11 (entered at 121) in a segment
of 10 bytes over a memory with every bit set. -/
theorem sieve_only_clears_multiples_witness :
    ∃ r, sieve 88 10 [[⟨0, 1, 2⟩, ⟨0, 3, 11⟩]] allSet = some r ∧
      (∀ i, ∃ ks : List Nat, (∀ k ∈ ks, k < 8) ∧ r.2.bytes i = allSet.bytes i &&& andMasks ks) ∧
      (∀ i k, (allSet.bytes i).testBit k = true → (r.2.bytes i).testBit k = false →
        i < 10 ∧ k < 8 ∧ ∃ b ∈ [[(⟨0, 1, 2⟩ : WheelPrime), ⟨0, 3, 11⟩]], ∃ wp ∈ b, ∃ p,
          PointsAt p 10 wp ∧ p ∣ number i k) ∧
      (∀ i k, ¬ ((allSet.bytes i).testBit k = true ∧ (r.2.bytes i).testBit k = false) →
        (r.2.bytes i).testBit k = (allSet.bytes i).testBit k) :=
  sieve_only_clears_multiples 88 10 [[⟨0, 1, 2⟩, ⟨0, 3, 11⟩]] allSet (by decide)
    (fun _ => (by decide : 255 < 256)) (by
      intro b hb wp hwp
      simp only [List.mem_singleton] at hb
      subst hb
      simp only [List.mem_cons, List.mem_singleton, List.not_mem_nil, or_false] at hwp
      rcases hwp with rfl | rfl
      · exact ⟨7, by decide⟩
      · exact ⟨11, by decide⟩)

theorem ptrDiffU32_eq (s sieveSize : Nat) (h1 : sieveSize ≤ s) (h2 : s - sieveSize < 4294967296) :
    ptrDiffU32 s sieveSize = s - sieveSize := by
  unfold ptrDiffU32
  omega

theorem exit_bounds (sieveSize : Nat) (wp : WheelPrime) (hv : Valid wp)
    (hs : wp.sieveIndex < sieveSize) :
    sieveSize ≤ pos wp.sievingPrime wp.wheelIndex wp.sieveIndex
        (exitIndex wp.sievingPrime sieveSize wp.wheelIndex wp.sieveIndex) ∧
      pos wp.sievingPrime wp.wheelIndex wp.sieveIndex
        (exitIndex wp.sievingPrime sieveSize wp.wheelIndex wp.sieveIndex)
        ≤ sieveSize + 3 * wp.sievingPrime + 2 := by
  obtain ⟨hw, hx⟩ := hv
  obtain ⟨⟨h1, hlt, hge⟩, _⟩ :=
    exitIndex_spec wp.sievingPrime sieveSize wp.wheelIndex wp.sieveIndex hx hw
  refine ⟨hge, ?_⟩
  generalize exitIndex wp.sievingPrime sieveSize wp.wheelIndex wp.sieveIndex = n at *
  obtain ⟨k, rfl⟩ : ∃ k, n = k + 1 := ⟨n - 1, by omega⟩
  rw [pos]
  have ha := adv_le wp.sievingPrime (caseAt wp.wheelIndex k) hx (caseAt_lt _ k hw)
  have hk : pos wp.sievingPrime wp.wheelIndex wp.sieveIndex k < sieveSize := by
    rcases Nat.eq_zero_or_pos k with h0 | h0
    · subst h0; exact hs
    · exact hlt k h0 (by omega)
  omega

theorem primeNext_sieveIndex (sieveSize : Nat) (wp : WheelPrime) (hv : Valid wp)
    (hs : wp.sieveIndex < sieveSize) :
    sieveSize + (primeNext sieveSize wp).sieveIndex
      = pos wp.sievingPrime wp.wheelIndex wp.sieveIndex
          (exitIndex wp.sievingPrime sieveSize wp.wheelIndex wp.sieveIndex) := by
  obtain ⟨h1, h2⟩ := exit_bounds sieveSize wp hv hs
  have hx := hv.2
  unfold NoWrap at hx
  show sieveSize + ptrDiffU32 _ sieveSize = _
  rw [ptrDiffU32_eq _ _ h1 (by omega)]
  omega

theorem primeNext_spec (p sieveSize : Nat) (wp : WheelPrime) (hp : PointsAt p sieveSize wp) :
    (primeNext sieveSize wp).sievingPrime = wp.sievingPrime ∧
    (primeNext sieveSize wp).wheelIndex / 8 = wp.wheelIndex / 8 ∧
    (∃ f, Nat.Coprime f 30 ∧
      number (sieveSize + (primeNext sieveSize wp).sieveIndex)
        (bitOf (primeNext sieveSize wp).wheelIndex) = p * f) ∧
    number wp.sieveIndex (bitOf wp.wheelIndex)
      ≤ number (sieveSize + (primeNext sieveSize wp).sieveIndex)
          (bitOf (primeNext sieveSize wp).wheelIndex) ∧
    (∀ i k f, sieveSize ≤ i → k < 8 → Nat.Coprime f 30 → number i k = p * f →
      number wp.sieveIndex (bitOf wp.wheelIndex) ≤ p * f →
      number (sieveSize + (primeNext sieveSize wp).sieveIndex)
        (bitOf (primeNext sieveSize wp).wheelIndex) ≤ number i k) := by
  have hg := pointsAt_inGroup p sieveSize wp hp
  have hv := pointsAt_valid p sieveSize wp hp
  have hw := hv.1
  have hs := hp.2.2.2.2.2.1
  have hx : wp.sievingPrime = p / 15 := hp.2.2.2.1
  obtain ⟨f0, hf0⟩ := hp.2.2.2.2.2.2
  have hp0 : 0 < p := by have := hp.1; omega
  obtain ⟨⟨h1, hlt, hge⟩, _⟩ :=
    exitIndex_spec wp.sievingPrime sieveSize wp.wheelIndex wp.sieveIndex hv.2 hw
  rw [primeNext_sieveIndex sieveSize wp hv hs]
  show _ ∧ caseAt wp.wheelIndex _ / 8 = _ ∧
    (∃ f, _ ∧ number _ (bitOf (caseAt wp.wheelIndex _)) = _) ∧
    _ ≤ number _ (bitOf (caseAt wp.wheelIndex _)) ∧
    ∀ i k f, _ → _ → _ → _ → _ → number _ (bitOf (caseAt wp.wheelIndex _)) ≤ _
  generalize exitIndex wp.sievingPrime sieveSize wp.wheelIndex wp.sieveIndex = n at *
  have hnum := number_pos p wp.wheelIndex wp.sieveIndex hg
  rw [← hx] at hnum
  refine ⟨rfl, by unfold caseAt; omega, ?_, ?_, ?_⟩
  · refine ⟨f0 + 2 * coefSum wp.wheelIndex n, ?_, ?_⟩
    · have hc := number_coprime (pos wp.sievingPrime wp.wheelIndex wp.sieveIndex n)
        (bitOf (caseAt wp.wheelIndex n)) (bitOf_lt _ (caseAt_lt _ n hw))
      rw [hnum n, hf0, ← Nat.mul_add] at hc
      exact Nat.Coprime.coprime_dvd_left (Dvd.intro_left _ rfl) hc
    · rw [hnum n, hf0, ← Nat.mul_add]
  · rw [hnum n]; omega
  · intro i k f hi hk hcop hn hm
    have hle : f0 ≤ f := by
      rw [hf0] at hm
      exact Nat.le_of_mul_le_mul_left hm hp0
    have e : f = f0 + (f - f0) := by omega
    rw [e] at hcop
    obtain ⟨j, hj⟩ := cover p (f - f0) wp.wheelIndex wp.sieveIndex f0 hg hf0 hcop
    have hnj := hnum j
    rw [hf0, ← Nat.mul_add, ← hj, ← e, ← hn] at hnj
    obtain ⟨e1, _⟩ := number_inj _ _ _ _ (bitOf_lt _ (caseAt_lt _ j hw)) hk hnj
    have hjn : n ≤ j := by
      by_contra hc
      have : pos wp.sievingPrime wp.wheelIndex wp.sieveIndex j < sieveSize := by
        rcases Nat.eq_zero_or_pos j with h0 | h0
        · subst h0; exact hs
        · exact hlt j h0 (by omega)
      omega
    have hmono := coefSum_mono wp.wheelIndex hjn
    rw [hnum n, hn, hf0, ← Nat.mul_add]
    apply Nat.mul_le_mul_left
    omega

/-- C3: `EratSmall::sieve` leaves every sieving prime pointing at its next multiple in
the following segment. For every `WheelPrime` of the bucket list whose entry state points
at a multiple `m` of its prime `p >= 7` coprime to 30, the state stored at the same place
of the list keeps `sievingPrime` and the wheel group, and its `(sieveIndex, wheelIndex)`,
read relative to the next segment (byte `sieveSize + sieveIndex` of this one), stands for
a number `p * f`, `f` coprime to 30, that is `>= m`, is the least such number whose byte
index is `>= sieveSize`, and is not divisible by 2, 3 or 5. -/
theorem sieve_leaves_next_multiple (fuel sieveSize : Nat) (buckets : List Bucket) (m : Mem)
    (hf : 8 * sieveSize + 8 ≤ fuel) (hv : ∀ b ∈ buckets, ∀ wp ∈ b, Valid wp) :
    ∃ r, sieve fuel sieveSize buckets m = some r ∧
      List.Forall₂ (List.Forall₂ fun wp wp1 => ∀ p, PointsAt p sieveSize wp →
        wp1.sievingPrime = wp.sievingPrime ∧ wp1.wheelIndex / 8 = wp.wheelIndex / 8 ∧
        (∃ f, Nat.Coprime f 30 ∧
          number (sieveSize + wp1.sieveIndex) (bitOf wp1.wheelIndex) = p * f) ∧
        number wp.sieveIndex (bitOf wp.wheelIndex)
          ≤ number (sieveSize + wp1.sieveIndex) (bitOf wp1.wheelIndex) ∧
        (∀ i k f, sieveSize ≤ i → k < 8 → Nat.Coprime f 30 → number i k = p * f →
          number wp.sieveIndex (bitOf wp.wheelIndex) ≤ p * f →
          number (sieveSize + wp1.sieveIndex) (bitOf wp1.wheelIndex) ≤ number i k) ∧
        ¬ 2 ∣ number (sieveSize + wp1.sieveIndex) (bitOf wp1.wheelIndex) ∧
        ¬ 3 ∣ number (sieveSize + wp1.sieveIndex) (bitOf wp1.wheelIndex) ∧
        ¬ 5 ∣ number (sieveSize + wp1.sieveIndex) (bitOf wp1.wheelIndex)) buckets r.1 := by
  refine ⟨_, sieve_eq fuel sieveSize hf buckets m hv, ?_⟩
  simp only [List.forall₂_map_right_iff, List.forall₂_same]
  intro b hb wp hwp p hp
  obtain ⟨h1, h2, h3, h4, h5⟩ := primeNext_spec p sieveSize wp hp
  refine ⟨h1, h2, h3, h4, h5, ?_⟩
  have hw : (primeNext sieveSize wp).wheelIndex < 64 := caseAt_lt _ _ (hv b hb wp hwp).1
  have hc := number_coprime (sieveSize + (primeNext sieveSize wp).sieveIndex)
    (bitOf (primeNext sieveSize wp).wheelIndex) (bitOf_lt _ hw)
  refine ⟨?_, ?_, ?_⟩
  · intro hd
    have := Nat.Coprime.coprime_dvd_left hd hc
    revert this; decide
  · intro hd
    have := Nat.Coprime.coprime_dvd_left hd hc
    revert this; decide
  · intro hd
    have := Nat.Coprime.coprime_dvd_left hd hc
    revert this; decide

/-- Witness of C3: the prime 7 entered at 49 in a segment of 10 bytes. -/
theorem sieve_leaves_next_multiple_witness :
    PointsAt 7 10 ⟨0, 1, 2⟩ ∧ ∃ r, sieve 88 10 [[⟨0, 1, 2⟩]] allSet = some r ∧
      List.Forall₂ (List.Forall₂ fun wp wp1 => ∀ p, PointsAt p 10 wp →
        wp1.sievingPrime = wp.sievingPrime ∧ wp1.wheelIndex / 8 = wp.wheelIndex / 8 ∧
        (∃ f, Nat.Coprime f 30 ∧
          number (10 + wp1.sieveIndex) (bitOf wp1.wheelIndex) = p * f) ∧
        number wp.sieveIndex (bitOf wp.wheelIndex)
          ≤ number (10 + wp1.sieveIndex) (bitOf wp1.wheelIndex) ∧
        (∀ i k f, 10 ≤ i → k < 8 → Nat.Coprime f 30 → number i k = p * f →
          number wp.sieveIndex (bitOf wp.wheelIndex) ≤ p * f →
          number (10 + wp1.sieveIndex) (bitOf wp1.wheelIndex) ≤ number i k) ∧
        ¬ 2 ∣ number (10 + wp1.sieveIndex) (bitOf wp1.wheelIndex) ∧
        ¬ 3 ∣ number (10 + wp1.sieveIndex) (bitOf wp1.wheelIndex) ∧
        ¬ 5 ∣ number (10 + wp1.sieveIndex) (bitOf wp1.wheelIndex)) [[⟨0, 1, 2⟩]] r.1 :=
  ⟨by decide, sieve_leaves_next_multiple 88 10 [[⟨0, 1, 2⟩]] allSet (by decide) (by decide)⟩

/-! ## Bit layout -/

/-- Counterexample to C4 as stated: with the bit layout of the spec (positions 0..7 for
the residues 1, 7, 11, 13, 17, 19, 23, 29 of the 30 integers of a byte), the prime 7 enters
a segment of 3 bytes at byte 1 with case 0 (mask `BIT5`, the number `30 + 19 = 49`, a
multiple of 7); `sieve` then clears bit 0 of byte 2, which was set and stands for
`60 + 1 = 61`, not a multiple of 7. -/
theorem spec_layout_counterexample :
    (0 : Nat) = 7 / 15 ∧ 0 / 8 = groupOf 7 ∧ 1 < 3 ∧ 7 ∣ specNumber 1 (bitOf 0) ∧
      (allSet.bytes 2).testBit 0 = true ∧
      (sievePrime 32 3 ⟨0, 1, 0⟩ allSet).map (fun r => (r.2.bytes 2).testBit 0) = some false ∧
      ¬ 7 ∣ specNumber 2 0 := by
  decide

theorem noWrap_iff (x : Nat) : NoWrap x ↔ ∃ p, p < 4294967296 ∧ x = p / 15 := by
  unfold NoWrap
  constructor
  · intro h; exact ⟨15 * x, h, by omega⟩
  · rintro ⟨p, hp, rfl⟩; omega

/-- C4, amended: with bit positions 0..7 of byte `i` standing for the numbers
`30 * i + 7, 11, 13, 17, 19, 23, 29, 31` (`BITk` clears position `k`), for every sieving
prime `p >= 7` and every entry state that points at a multiple of `p`, every access that
`sieve` makes for `p` and every bit that it clears represents a multiple of `p`. -/
theorem sievePrime_clears_multiples_only (fuel sieveSize p : Nat) (wp : WheelPrime) (m : Mem)
    (hf : 8 * sieveSize + 8 ≤ fuel) (hbytes : ∀ i, m.bytes i < 256)
    (hp : PointsAt p sieveSize wp) :
    ∃ r, sievePrime fuel sieveSize wp m = some r ∧
      (∃ new, r.2.log = m.log ++ new ∧ ∀ a ∈ new, a.2 < 8 ∧ p ∣ number a.1 a.2) ∧
      ∀ i k, (m.bytes i).testBit k = true → (r.2.bytes i).testBit k = false →
        k < 8 ∧ p ∣ number i k := by
  have hv := pointsAt_valid p sieveSize wp hp
  have hb := primeHits_bounds sieveSize wp hv hp.2.2.2.2.2.1
  refine ⟨_, sievePrime_eq fuel sieveSize wp m hv hf, ?_, ?_⟩
  · exact ⟨primeHits sieveSize wp, applyHits_log _ m,
      fun a ha => ⟨(hb a ha).2, primeHits_multiple p sieveSize wp hp a ha⟩⟩
  · intro i k h1 h0
    obtain ⟨hk8, hmem⟩ := applyHits_changed _ m i k (hbytes i) (fun h hh => (hb h hh).2) h1 h0
    exact ⟨hk8, primeHits_multiple p sieveSize wp hp _ hmem⟩

/-- Witness of the amended C4: the prime 7 entered at 49 in a segment of 10 bytes. -/
theorem sievePrime_clears_multiples_only_witness :
    ∃ r, sievePrime 88 10 ⟨0, 1, 2⟩ allSet = some r ∧
      (∃ new, r.2.log = allSet.log ++ new ∧ ∀ a ∈ new, a.2 < 8 ∧ 7 ∣ number a.1 a.2) ∧
      ∀ i k, (allSet.bytes i).testBit k = true → (r.2.bytes i).testBit k = false →
        k < 8 ∧ 7 ∣ number i k :=
  sievePrime_clears_multiples_only 88 10 7 ⟨0, 1, 2⟩ allSet (by decide)
    (fun _ => (by decide : 255 < 256)) (by decide)

/-- C5: constructing `EratSmall` fails with the invalid-argument error exactly when
`limit >= (sieveSize - 2) * 5`: for every `sieveSize >= 2` with `(sieveSize - 2) * 5 < 2^32`
and every `limit` (32-bit or not); so `limit = (sieveSize - 2) * 5` is rejected and the `limit` just
below it is accepted. -/
theorem construct_throws_iff (limit sieveSize : Nat) (h2 : 2 ≤ sieveSize)
    (hs : (sieveSize - 2) * 5 < 4294967296) :
    ((∃ e, EratSmall limit sieveSize = Except.error e) ↔ (sieveSize - 2) * 5 ≤ limit) ∧
    (EratSmall limit sieveSize = Except.ok () ↔ limit < (sieveSize - 2) * 5) ∧
    (∃ e, EratSmall ((sieveSize - 2) * 5) sieveSize = Except.error e) ∧
    (limit + 1 = (sieveSize - 2) * 5 → EratSmall limit sieveSize = Except.ok ()) := by
  have e : u32 (u32 (sieveSize + 4294967296 - 2) * 5) = (sieveSize - 2) * 5 := by
    unfold u32; omega
  unfold EratSmall
  rw [e]
  refine ⟨?_, ?_, ?_, ?_⟩
  · by_cases h : (sieveSize - 2) * 5 ≤ limit
    · simp [h]
    · simp [h]
  · by_cases h : (sieveSize - 2) * 5 ≤ limit
    · simp [h]
    · simp [h]; omega
  · simp
  · intro h
    rw [if_neg (by omega)]

/-- Witness of C5: a segment of 32768 bytes, whose bound is 163830. -/
theorem construct_throws_iff_witness :
    ((∃ e, EratSmall 163829 32768 = Except.error e) ↔ (32768 - 2) * 5 ≤ 163829) ∧
    (EratSmall 163829 32768 = Except.ok () ↔ 163829 < (32768 - 2) * 5) ∧
    (∃ e, EratSmall ((32768 - 2) * 5) 32768 = Except.error e) ∧
    (163829 + 1 = (32768 - 2) * 5 → EratSmall 163829 32768 = Except.ok ()) :=
  construct_throws_iff 163829 32768 (by decide) (by decide)

/-- C6: `EratSmall::sieve` never writes outside the segment. For every `sieveSize` and
every bucket list whose states have a wheel index in 0..63, a stored `sievingPrime`
value (`p / 15` of a 32-bit `p`, `NoWrap`) and an entry index `< sieveSize`, every byte
index that `sieve` accesses, in the single steps and in the unrolled loops alike, is
`< sieveSize`, and no byte from `sieveSize` on is changed. -/
theorem sieve_stays_in_segment (fuel sieveSize : Nat) (buckets : List Bucket) (m : Mem)
    (hf : 8 * sieveSize + 8 ≤ fuel)
    (hv : ∀ b ∈ buckets, ∀ wp ∈ b, wp.wheelIndex < 64 ∧ NoWrap wp.sievingPrime ∧
      wp.sieveIndex < sieveSize) :
    ∃ r, sieve fuel sieveSize buckets m = some r ∧
      (∃ new, r.2.log = m.log ++ new ∧ ∀ a ∈ new, a.1 < sieveSize) ∧
      ∀ i, sieveSize ≤ i → r.2.bytes i = m.bytes i := by
  have hv2 : ∀ b ∈ buckets, ∀ wp ∈ b, Valid wp :=
    fun b hb wp hwp => ⟨(hv b hb wp hwp).1, (hv b hb wp hwp).2.1⟩
  have hb : ∀ a ∈ buckets.flatten.flatMap (primeHits sieveSize), a.1 < sieveSize := by
    intro a ha
    obtain ⟨b, hb, wp, hwp, hh⟩ := (mem_allHits sieveSize buckets a).mp ha
    exact (primeHits_bounds sieveSize wp (hv2 b hb wp hwp) (hv b hb wp hwp).2.2 a hh).1
  refine ⟨_, sieve_eq fuel sieveSize hf buckets m hv2, ⟨_, applyHits_log _ m, hb⟩, ?_⟩
  intro i hi
  apply applyHits_frame
  intro a ha e
  have := hb a ha
  omega

/-- Witness of C6: the primes 7, 17 and 31 in a segment of 40 bytes (the unrolled loop of
the prime 7 runs four times). -/
theorem sieve_stays_in_segment_witness :
    ∃ r, sieve 328 40 [[⟨0, 1, 2⟩, ⟨1, 9, 31⟩], [⟨2, 0, 57⟩]] allSet = some r ∧
      (∃ new, r.2.log = allSet.log ++ new ∧ ∀ a ∈ new, a.1 < 40) ∧
      ∀ i, 40 ≤ i → r.2.bytes i = allSet.bytes i :=
  sieve_stays_in_segment 328 40 [[⟨0, 1, 2⟩, ⟨1, 9, 31⟩], [⟨2, 0, 57⟩]] allSet (by decide)
    (by decide)

theorem construct_ok_bound (limit sieveSize : Nat) (h2 : 2 ≤ sieveSize)
    (h : EratSmall limit sieveSize = Except.ok ()) : limit < (sieveSize - 2) * 5 := by
  unfold EratSmall at h
  split at h
  · cases h
  · rename_i hn
    unfold u32 at hn
    have h1 : (sieveSize + 4294967296 - 2) % 4294967296 * 5 % 4294967296
        ≤ (sieveSize - 2) * 5 := by
      have : (sieveSize + 4294967296 - 2) % 4294967296 ≤ sieveSize - 2 := by omega
      omega
    omega

/-- C7: the constructor's limit check keeps the stored index inside the next segment. For
every `sieveSize` and 32-bit `limit` with `limit < (sieveSize - 2) * 5`, every `p <= limit`
stored as `p / 15`, every wheel index in 0..63 and every entry index `< sieveSize`, the
loop of `sieve` ends at a byte position `s >= sieveSize`, the index stored on exit is
`s - sieveSize` (no wrap-around), it is at most `3 * (p / 15) + 2`, hence `< sieveSize`. -/
theorem stored_index_in_next_segment (fuel sieveSize limit p w s : Nat) (m : Mem)
    (hf : 8 * sieveSize + 8 ≤ fuel) (hlim : limit < (sieveSize - 2) * 5)
    (hl : limit < 4294967296) (hp : p ≤ limit) (hw : w < 64) (hs : s < sieveSize) :
    ∃ sEnd w1 m1, crossOff (p / 15) sieveSize fuel w s m = some (sEnd, w1, m1) ∧
      sieveSize ≤ sEnd ∧
      sievePrime fuel sieveSize ⟨p / 15, s, w⟩ m
        = some (⟨p / 15, sEnd - sieveSize, w1⟩, m1) ∧
      sEnd - sieveSize ≤ 3 * (p / 15) + 2 ∧ sEnd - sieveSize < sieveSize := by
  have hx : NoWrap (p / 15) := by unfold NoWrap; omega
  have hv : Valid ⟨p / 15, s, w⟩ := ⟨hw, hx⟩
  obtain ⟨hex, hle⟩ := exitIndex_spec (p / 15) sieveSize w s hx hw
  obtain ⟨h1, h2⟩ := exit_bounds sieveSize ⟨p / 15, s, w⟩ hv hs
  simp only at h1 h2
  have hco := crossOff_eq (p / 15) sieveSize hx fuel _ w s m hw hex (by omega)
  refine ⟨_, _, _, hco, h1, ?_, by omega, by omega⟩
  unfold sievePrime
  simp only
  rw [hco]
  simp only
  rw [ptrDiffU32_eq _ _ h1 (by unfold NoWrap at hx; omega)]

/-- Witness of C7: `sieveSize = 32`, `limit = 149`, the prime 149 entered at byte 31. -/
theorem stored_index_in_next_segment_witness :
    ∃ sEnd w1 m1, crossOff (149 / 15) 32 264 49 31 allSet = some (sEnd, w1, m1) ∧
      32 ≤ sEnd ∧
      sievePrime 264 32 ⟨149 / 15, 31, 49⟩ allSet = some (⟨149 / 15, sEnd - 32, w1⟩, m1) ∧
      sEnd - 32 ≤ 3 * (149 / 15) + 2 ∧ sEnd - 32 < 32 :=
  stored_index_in_next_segment 264 32 149 149 49 31 allSet (by decide) (by decide) (by decide)
    (by decide) (by decide) (by decide)

theorem caseAt_iterate (w : Nat) : ∀ n, fallThrough^[n] w = caseAt w n := by
  intro n
  induction n with
  | zero => simp [caseAt_zero]
  | succ n ih => rw [Function.iterate_succ_apply', ih, fallThrough_eq, caseAt_caseAt]

/-- C9: one full wheel revolution advances by `p` bytes. For each of the 8 wheel groups,
every 32-bit `p` coprime to 30 (in particular every `p >= 7`) in the residue class of the
group, with `primeX2 = p / 15`, and every starting case `w` of the group, the byte
advances of the 8 consecutive single steps (the cases `w`, `fallThrough w`, ...) add up
to `p`. -/
theorem revolution_advances_by_p (p w : Nat) (hp : p < 4294967296) (hc : Nat.Coprime p 30)
    (hw : w / 8 = groupOf p) :
    ((List.range 8).map fun j => adv (p / 15) (fallThrough^[j] w)).sum = p := by
  have hg : InGroup p w := ⟨hc, hp, hw⟩
  have h8 := pos_eight (p / 15) w 0 (inGroup_noWrap p w hg) (inGroup_lt p w hg)
  have hd := (groupOf_spec p hc).2.1
  rw [hw, ← hd] at h8
  have e : ((List.range 8).map fun j => adv (p / 15) (fallThrough^[j] w)).sum
      = pos (p / 15) w 0 8 := by
    simp only [caseAt_iterate]
    simp [List.range_succ, pos]
    omega
  rw [e, h8]
  omega

/-- Witness of C9: the prime 97 of the group of 7, started at case 5. -/
theorem revolution_advances_by_p_witness :
    ((List.range 8).map fun j => adv (97 / 15) (fallThrough^[j] 5)).sum = 97 :=
  revolution_advances_by_p 97 5 (by decide) (by decide) (by decide)

/-! ## Segmentation -/

theorem pos_translate (x w s c : Nat) : ∀ n, pos x w (s + c) n = pos x w s n + c := by
  intro n
  induction n with
  | zero => rfl
  | succ n ih => rw [pos, ih, pos]; omega

theorem hits_translate (x w s c n : Nat) :
    hits x w (s + c) n = (hits x w s n).map (shiftHit c) := by
  simp only [hits, List.map_map]
  apply List.map_congr_left
  intro j _
  simp [shiftHit, pos_translate]

theorem exitAt_compose (x n1 n2 w s a b s1 : Nat) (ha : ExitAt x n1 w s a)
    (hs1 : pos x w s a = s1 + n1) (hlt : s1 < n2) (hb : ExitAt x n2 (caseAt w a) s1 b) :
    ExitAt x (n1 + n2) w s (a + b) := by
  obtain ⟨ha1, ha2, ha3⟩ := ha
  obtain ⟨hb1, hb2, hb3⟩ := hb
  have key : ∀ j, pos x w s (a + j) = pos x (caseAt w a) s1 j + n1 := by
    intro j
    rw [pos_add, hs1, pos_translate]
  refine ⟨by omega, ?_, ?_⟩
  · intro j hj1 hj2
    by_cases hja : j < a
    · have := ha2 j hj1 hja; omega
    · obtain ⟨j', rfl⟩ : ∃ j', j = a + j' := ⟨j - a, by omega⟩
      rw [key]
      rcases Nat.eq_zero_or_pos j' with h0 | h0
      · subst h0; simp only [pos]; omega
      · have := hb2 j' h0 (by omega); omega
  · rw [key]; omega

theorem ptrDiffU32_translate (t n1 n2 : Nat) :
    ptrDiffU32 (t + n1) (n1 + n2) = ptrDiffU32 t n2 := by
  unfold ptrDiffU32
  congr 2
  omega

theorem primeNext_valid (sieveSize : Nat) (wp : WheelPrime) (hv : Valid wp) :
    Valid (primeNext sieveSize wp) := ⟨caseAt_lt _ _ hv.1, hv.2⟩

theorem wheelPrime_ext (a b : WheelPrime) (h1 : a.sievingPrime = b.sievingPrime)
    (h2 : a.sieveIndex = b.sieveIndex) (h3 : a.wheelIndex = b.wheelIndex) : a = b := by
  cases a
  cases b
  simp only at h1 h2 h3
  subst h1 h2 h3
  rfl

theorem prime_segmentation (n1 n2 : Nat) (wp : WheelPrime) (hv : Valid wp)
    (hs : wp.sieveIndex < n1) (h2 : (primeNext n1 wp).sieveIndex < n2) :
    primeNext (n1 + n2) wp = primeNext n2 (primeNext n1 wp) ∧
    primeHits (n1 + n2) wp
      = primeHits n1 wp ++ (primeHits n2 (primeNext n1 wp)).map (shiftHit n1) := by
  obtain ⟨hw, hx⟩ := hv
  have hv1 := primeNext_valid n1 wp ⟨hw, hx⟩
  obtain ⟨hea, _⟩ := exitIndex_spec wp.sievingPrime n1 wp.wheelIndex wp.sieveIndex hx hw
  obtain ⟨heb, _⟩ := exitIndex_spec (primeNext n1 wp).sievingPrime n2 (primeNext n1 wp).wheelIndex
    (primeNext n1 wp).sieveIndex hv1.2 hv1.1
  obtain ⟨hen, _⟩ := exitIndex_spec wp.sievingPrime (n1 + n2) wp.wheelIndex wp.sieveIndex hx hw
  have hidx := primeNext_sieveIndex n1 wp ⟨hw, hx⟩ hs
  have hs1 : pos wp.sievingPrime wp.wheelIndex wp.sieveIndex
      (exitIndex wp.sievingPrime n1 wp.wheelIndex wp.sieveIndex)
      = (primeNext n1 wp).sieveIndex + n1 := by omega
  have hcomp := exitAt_compose wp.sievingPrime n1 n2 wp.wheelIndex wp.sieveIndex _ _ _ hea hs1 h2 heb
  have hN := exitAt_unique _ _ _ _ _ _ hen hcomp
  constructor
  · apply wheelPrime_ext
    · rfl
    · show ptrDiffU32 (pos wp.sievingPrime wp.wheelIndex wp.sieveIndex
          (exitIndex wp.sievingPrime (n1 + n2) wp.wheelIndex wp.sieveIndex)) (n1 + n2)
        = ptrDiffU32 (pos (primeNext n1 wp).sievingPrime (primeNext n1 wp).wheelIndex
            (primeNext n1 wp).sieveIndex (exitIndex (primeNext n1 wp).sievingPrime n2
              (primeNext n1 wp).wheelIndex (primeNext n1 wp).sieveIndex)) n2
      rw [hN, pos_add, hs1, pos_translate, ptrDiffU32_translate]
      rfl
    · show caseAt wp.wheelIndex (exitIndex wp.sievingPrime (n1 + n2) wp.wheelIndex wp.sieveIndex)
        = caseAt (primeNext n1 wp).wheelIndex (exitIndex (primeNext n1 wp).sievingPrime n2
            (primeNext n1 wp).wheelIndex (primeNext n1 wp).sieveIndex)
      rw [hN, ← caseAt_caseAt]
      rfl
  · show hits wp.sievingPrime wp.wheelIndex wp.sieveIndex
        (exitIndex wp.sievingPrime (n1 + n2) wp.wheelIndex wp.sieveIndex)
      = hits wp.sievingPrime wp.wheelIndex wp.sieveIndex
          (exitIndex wp.sievingPrime n1 wp.wheelIndex wp.sieveIndex)
        ++ (hits (primeNext n1 wp).sievingPrime (primeNext n1 wp).wheelIndex
            (primeNext n1 wp).sieveIndex (exitIndex (primeNext n1 wp).sievingPrime n2
              (primeNext n1 wp).wheelIndex (primeNext n1 wp).sieveIndex)).map (shiftHit n1)
    rw [hN, hits_add, hs1, hits_translate]
    rfl

theorem andAt_congr (m m1 : Mem) (a k : Nat) (h : ∀ i, m.bytes i = m1.bytes i) :
    ∀ i, (m.andAt a k).bytes i = (m1.andAt a k).bytes i := by
  intro i
  simp only [Mem.andAt, h]

theorem applyHits_congr (hs : List (Nat × Nat)) : ∀ (m m1 : Mem),
    (∀ i, m.bytes i = m1.bytes i) → ∀ i, (m.applyHits hs).bytes i = (m1.applyHits hs).bytes i := by
  induction hs with
  | nil => intro m m1 h; exact h
  | cons a r ih =>
    intro m m1 h
    rw [applyHits_cons, applyHits_cons]
    exact ih _ _ (andAt_congr m m1 a.1 a.2 h)

theorem andAt_comm (m : Mem) (a b : Nat × Nat) :
    ∀ i, ((m.andAt a.1 a.2).andAt b.1 b.2).bytes i = ((m.andAt b.1 b.2).andAt a.1 a.2).bytes i := by
  intro i
  simp only [Mem.andAt]
  split_ifs
  · rw [Nat.land_assoc, Nat.land_assoc, Nat.land_comm (BIT a.2)]
  · rfl
  · rfl
  · rfl

theorem applyHits_perm {hs hs1 : List (Nat × Nat)} (h : hs.Perm hs1) :
    ∀ (m : Mem) (i : Nat), (m.applyHits hs).bytes i = (m.applyHits hs1).bytes i := by
  induction h with
  | nil => intro m i; rfl
  | cons a _ ih => intro m i; rw [applyHits_cons, applyHits_cons]; exact ih _ i
  | swap a b l =>
    intro m i
    simp only [applyHits_cons]
    exact applyHits_congr l _ _ (andAt_comm m b a) i
  | trans _ _ ih1 ih2 => intro m i; rw [ih1, ih2]

theorem applyHits_shift (n : Nat) (hs : List (Nat × Nat)) : ∀ (m m1 : Mem),
    (∀ i, m1.bytes i = m.bytes (n + i)) →
    ∀ i, (m1.applyHits hs).bytes i = (m.applyHits (hs.map (shiftHit n))).bytes (n + i) := by
  induction hs with
  | nil => intro m m1 h; exact h
  | cons a r ih =>
    intro m m1 h
    rw [List.map_cons, applyHits_cons, applyHits_cons]
    apply ih
    intro i
    simp only [Mem.andAt, shiftHit, h]
    by_cases e : i = a.1
    · subst e; simp [Nat.add_comm]
    · rw [if_neg e, if_neg (by omega)]

/-- C8: segmentation does not change the result of `EratSmall::sieve`. For all segment
sizes `n1`, `n2` and every bucket list whose states have a wheel index in 0..63, a stored
`sievingPrime` value and an entry index `< n1`: sieving the first `n1` bytes and then,
with the stored states (when their indexes are `< n2`), the `n2` bytes that follow, gives
the same final states and the same bytes as sieving the `n1 + n2` bytes at once. -/
theorem sieve_segmentation (fuel n1 n2 : Nat) (buckets : List Bucket) (m : Mem)
    (hf : 8 * (n1 + n2) + 8 ≤ fuel)
    (hv : ∀ b ∈ buckets, ∀ wp ∈ b, wp.wheelIndex < 64 ∧ NoWrap wp.sievingPrime ∧
      wp.sieveIndex < n1) :
    ∃ r1, sieve fuel n1 buckets m = some r1 ∧
      ((∀ b ∈ r1.1, ∀ wp ∈ b, wp.sieveIndex < n2) →
        ∃ r2 r, sieve fuel n2 r1.1 (r1.2.shift n1) = some r2 ∧
          sieve fuel (n1 + n2) buckets m = some r ∧ r.1 = r2.1 ∧
          ∀ i, r.2.bytes i = if i < n1 then r1.2.bytes i else r2.2.bytes (i - n1)) := by
  have hv0 : ∀ b ∈ buckets, ∀ wp ∈ b, Valid wp :=
    fun b hb wp hwp => ⟨(hv b hb wp hwp).1, (hv b hb wp hwp).2.1⟩
  refine ⟨_, sieve_eq fuel n1 (by omega) buckets m hv0, ?_⟩
  intro h2
  simp only at h2
  have h2a : ∀ b ∈ buckets, ∀ wp ∈ b, (primeNext n1 wp).sieveIndex < n2 := by
    intro b hb wp hwp
    exact h2 (b.map (primeNext n1)) (List.mem_map_of_mem _ hb) (primeNext n1 wp)
      (List.mem_map_of_mem _ hwp)
  have hv1 : ∀ b ∈ buckets.map (List.map (primeNext n1)), ∀ wp ∈ b, Valid wp := by
    intro b hb wp hwp
    obtain ⟨b0, hb0, rfl⟩ := List.mem_map.mp hb
    obtain ⟨wp0, hwp0, rfl⟩ := List.mem_map.mp hwp
    exact primeNext_valid n1 wp0 (hv0 b0 hb0 wp0 hwp0)
  have hseg : ∀ wp ∈ buckets.flatten,
      primeNext (n1 + n2) wp = primeNext n2 (primeNext n1 wp) ∧
      primeHits (n1 + n2) wp
        = primeHits n1 wp ++ (primeHits n2 (primeNext n1 wp)).map (shiftHit n1) := by
    intro wp hwp
    obtain ⟨b, hb, hwb⟩ := List.mem_flatten.mp hwp
    exact prime_segmentation n1 n2 wp (hv0 b hb wp hwb) (hv b hb wp hwb).2.2 (h2a b hb wp hwb)
  refine ⟨_, _, sieve_eq fuel n2 (by omega) _ _ hv1, sieve_eq fuel (n1 + n2) hf buckets m hv0, ?_, ?_⟩
  · simp only [List.map_map]
    apply List.map_congr_left
    intro b hb
    simp only [Function.comp, List.map_map]
    apply List.map_congr_left
    intro wp hwp
    exact (hseg wp (List.mem_flatten.mpr ⟨b, hb, hwp⟩)).1
  · intro i
    simp only
    have hH : buckets.flatten.flatMap (primeHits (n1 + n2))
        = buckets.flatten.flatMap fun wp =>
            primeHits n1 wp ++ (primeHits n2 (primeNext n1 wp)).map (shiftHit n1) :=
      List.flatMap_congr fun wp hwp => (hseg wp hwp).2
    have hH2 : ((buckets.map (List.map (primeNext n1))).flatten.flatMap (primeHits n2)).map
        (shiftHit n1)
        = buckets.flatten.flatMap fun wp => (primeHits n2 (primeNext n1 wp)).map (shiftHit n1) := by
      rw [← List.map_flatten, List.flatMap_map, List.map_flatMap]
    have hperm := (List.flatMap_append_perm buckets.flatten (primeHits n1)
      (fun wp => (primeHits n2 (primeNext n1 wp)).map (shiftHit n1))).symm
    rw [hH, applyHits_perm hperm m i, ← hH2, applyHits_append]
    by_cases hi : i < n1
    · rw [if_pos hi]
      apply applyHits_frame
      intro a ha e
      obtain ⟨a0, _, rfl⟩ := List.mem_map.mp ha
      simp only [shiftHit] at e
      omega
    · rw [if_neg hi]
      have e : i = n1 + (i - n1) := by omega
      rw [e, ← applyHits_shift n1 _ (m.applyHits (buckets.flatten.flatMap (primeHits n1)))
        ((m.applyHits (buckets.flatten.flatMap (primeHits n1))).shift n1) (fun _ => rfl)]
      have e2 : n1 + (i - n1) - n1 = i - n1 := by omega
      rw [e2]

/-- Witness of C8: the primes 7 and 31 over 16 and then 24 bytes, against 40 bytes at
once; the indexes stored after the first 16 bytes are 0 and 1. -/
theorem sieve_segmentation_witness :
    ∃ r1 r2 r, sieve 328 16 [[⟨0, 1, 2⟩], [⟨2, 0, 57⟩]] allSet = some r1 ∧
      r1.1 = [[⟨0, 0, 3⟩], [⟨2, 1, 61⟩]] ∧
      sieve 328 24 r1.1 (r1.2.shift 16) = some r2 ∧
      sieve 328 (16 + 24) [[⟨0, 1, 2⟩], [⟨2, 0, 57⟩]] allSet = some r ∧ r.1 = r2.1 ∧
      ∀ i, r.2.bytes i = if i < 16 then r1.2.bytes i else r2.2.bytes (i - 16) := by
  obtain ⟨r1, h1, h⟩ :=
    sieve_segmentation 328 16 24 [[⟨0, 1, 2⟩], [⟨2, 0, 57⟩]] allSet (by decide) (by decide)
  have e : (sieve 328 16 [[⟨0, 1, 2⟩], [⟨2, 0, 57⟩]] allSet).map (fun r => r.1)
      = some [[⟨0, 0, 3⟩], [⟨2, 1, 61⟩]] := by decide
  rw [h1] at e
  have e1 : r1.1 = [[⟨0, 0, 3⟩], [⟨2, 1, 61⟩]] := by simpa using e
  obtain ⟨r2, r, h2, h3, h4, h5⟩ := h (by rw [e1]; decide)
  exact ⟨r1, r2, r, h1, e1, h2, h3, h4, h5⟩

/-! ## The limit of the constructor and the entry of the switch -/

/-- Counterexample to C11 as stated: for `sieveSize = 32768` the constructor accepts
`limit = 163829`, which admits the prime 1093 although `1093 * 30 > 32768`. -/
theorem small_prime_admitted_counterexample :
    EratSmall 163829 32768 = Except.ok () ∧ Nat.Prime 1093 ∧ 1093 ≤ 163829 ∧
      1093 * 30 > 32768 := by
  refine ⟨rfl, by norm_num, by decide, by decide⟩

/-- C11, amended: `EratSmall` rejects primes that are too large for the segment, the
bound being `(sieveSize - 2) * 5`: for every `sieveSize >= 2` and every `p` with
`p >= (sieveSize - 2) * 5`, every `limit` that admits `p` (`p <= limit`) makes the
constructor throw; so a limit accepted for that `sieveSize` admits only `p` with
`p < (sieveSize - 2) * 5`. -/
theorem large_prime_rejected (limit sieveSize p : Nat) (h2 : 2 ≤ sieveSize)
    (hp : (sieveSize - 2) * 5 ≤ p) (hl : p ≤ limit) :
    (∃ e, EratSmall limit sieveSize = Except.error e) ∧
      ∀ limit1, EratSmall limit1 sieveSize = Except.ok () → ¬ p ≤ limit1 := by
  constructor
  · cases h : EratSmall limit sieveSize with
    | error e => exact ⟨e, rfl⟩
    | ok u =>
      have := construct_ok_bound limit sieveSize h2 h
      omega
  · intro limit1 h hle
    have := construct_ok_bound limit1 sieveSize h2 h
    omega

/-- Witness of the amended C11: `sieveSize = 32`, whose bound is 150, and the prime 151. -/
theorem large_prime_rejected_witness :
    (∃ e, EratSmall 200 32 = Except.error e) ∧
      ∀ limit1, EratSmall limit1 32 = Except.ok () → ¬ 151 ≤ limit1 :=
  large_prime_rejected 200 32 151 (by decide) (by decide) (by decide)

theorem bits_nodup : ∀ w, w < 64 → ((List.range 8).map fun j => bitOf (caseAt w j)).Nodup := by
  decide

theorem hits_eight_nodup (x w s : Nat) (hw : w < 64) : (hits x w s 8).Nodup := by
  apply List.Nodup.of_map Prod.snd
  have e : (hits x w s 8).map Prod.snd = (List.range 8).map fun j => bitOf (caseAt w j) := by
    simp only [hits, List.map_map]
    rfl
  rw [e]
  exact bits_nodup w hw

/-- Counterexample to C13 as stated: for the prime 7 (`primeX2 = 0`), one pass through the
body of the unrolled loop of its group, entered with the pointer at byte 1 over a memory
with every bit set, makes 8 accesses (not 40) and leaves the pointer at byte `1 + 7`
(not `1 + 5 * 7`). -/
theorem five_revolutions_counterexample :
    (fastLoopOf 0).map (fun cb => ((execOps 0 cb.2 (1, allSet)).1,
      (execOps 0 cb.2 (1, allSet)).2.log.length)) = some (1 + 7, 8) ∧
    1 + 7 ≠ 1 + 5 * 7 ∧ 8 ≠ 40 := by
  decide

/-- C13, amended: each pass through the body of a fast loop processes one wheel
revolution. For every group and every 32-bit sieving prime `p` coprime to 30 of the
group, one iteration of the inner while-loop makes 8 accesses, at 8 different
(byte, bit) positions (the 8 hits of a revolution), clears exactly these bits among the
bits that were set, and advances the byte pointer by `p`. -/
theorem fast_loop_pass_is_one_revolution (p w c s : Nat) (body : List Op) (m : Mem)
    (hp : p < 4294967296) (hc : Nat.Coprime p 30) (hw : w / 8 = groupOf p)
    (hfl : fastLoopOf w = some (c, body)) (hbytes : ∀ i, m.bytes i < 256) :
    (execOps (p / 15) body (s, m)).1 = s + p ∧
    ∃ new, (execOps (p / 15) body (s, m)).2.log = m.log ++ new ∧ new.length = 8 ∧
      new.Nodup ∧
      ∀ i k, (m.bytes i).testBit k = true →
        (((execOps (p / 15) body (s, m)).2.bytes i).testBit k = false ↔ (i, k) ∈ new) := by
  have hg : InGroup p w := ⟨hc, hp, hw⟩
  have hx := inGroup_noWrap p w hg
  obtain ⟨hw64, hw8⟩ := fastLoopOf_cases w c body hfl
  have hw1 : w + 1 < 64 := by omega
  obtain ⟨hb, _⟩ := fast_body (p / 15) w c body hx hfl s m
  have h8 := pos_eight (p / 15) (w + 1) s hx hw1
  have hd := (groupOf_spec p hc).2.1
  have hdiv : (w + 1) / 8 = w / 8 := by omega
  rw [hdiv, hw, ← hd] at h8
  rw [hb]
  refine ⟨by simp only; omega, hits (p / 15) (w + 1) s 8, applyHits_log _ m, hits_length _ _ _ _,
    hits_eight_nodup _ _ _ hw1, ?_⟩
  intro i k h1
  have hk8 : ∀ h ∈ hits (p / 15) (w + 1) s 8, h.2 < 8 := by
    intro h hh
    obtain ⟨j, _, rfl⟩ := (mem_hits _ _ _ _ h).mp hh
    exact bitOf_lt _ (caseAt_lt _ _ hw1)
  constructor
  · intro h0
    exact (applyHits_changed _ m i k (hbytes i) hk8 h1 h0).2
  · intro hmem
    exact applyHits_cleared _ m i k hmem (hk8 (i, k) hmem)

/-- Witness of the amended C13: the prime 97 of the group of 7, pointer at byte 3. -/
theorem fast_loop_pass_is_one_revolution_witness :
    fastLoopOf 0 = some (7, [.andC 0 0, .inc 0, .andC 1 4, .andX4 2 3, .inc 0, .andC 2 7,
      .andX4 3 6, .inc 0, .andC 4 2, .andX4 5 1, .inc 0, .andX4 6 5, .inc 7]) ∧
    (execOps (97 / 15) [.andC 0 0, .inc 0, .andC 1 4, .andX4 2 3, .inc 0, .andC 2 7,
      .andX4 3 6, .inc 0, .andC 4 2, .andX4 5 1, .inc 0, .andX4 6 5, .inc 7] (3, allSet)).1
      = 3 + 97 :=
  ⟨rfl, (fast_loop_pass_is_one_revolution 97 0 7 3 _ allSet (by decide) (by decide) (by decide)
    rfl (fun _ => (by decide : 255 < 256))).1⟩

/-- Counterexample to C15 as stated: the prime 7 with entry index 12 in a segment of 10
bytes and wheel index 2. `sieve` makes the single step of case 2: byte 12 is AND-ed with
`BIT4`, the wheel index becomes 3 (not 2) and the stored index is `12 + 1 - 10 = 3`
(not `12 - 10 = 2`). -/
theorem entry_beyond_segment_counterexample :
    10 ≤ 12 ∧
    (sievePrime 88 10 ⟨0, 12, 2⟩ allSet).map (fun r => (r.1, r.2.bytes 12))
      = some (⟨0, 3, 3⟩, 239) ∧
    (⟨0, 3, 3⟩ : WheelPrime).wheelIndex ≠ 2 ∧ (⟨0, 3, 3⟩ : WheelPrime).sieveIndex ≠ 12 - 10 := by
  decide

/-- C15, amended: a sieving prime whose index is `>= sieveSize` on entry is not skipped,
`EratSmall::sieve` has no entry test: for every state with a wheel index in 0..63 and
entry `sieveIndex >= sieveSize`, `sieve` makes the single step of case `wheelIndex`. It
changes no byte of the segment (its one access is at byte `sieveIndex`, beyond the
segment), leaves `sievingPrime` unchanged, stores the next case of the group as wheel
index and `sieveIndex + step - sieveSize` (in `uint32_t`) as the new index. -/
theorem entry_beyond_segment_single_step (fuel sieveSize : Nat) (wp : WheelPrime) (m : Mem)
    (hf : 1 ≤ fuel) (hw : wp.wheelIndex < 64) (hs : sieveSize ≤ wp.sieveIndex) :
    ∃ r, sievePrime fuel sieveSize wp m = some r ∧
      (∀ i, i < sieveSize → r.2.bytes i = m.bytes i) ∧
      r.2.log = m.log ++ [(wp.sieveIndex, bitOf wp.wheelIndex)] ∧
      r.1.sievingPrime = wp.sievingPrime ∧
      r.1.wheelIndex = fallThrough wp.wheelIndex ∧
      r.1.sieveIndex
        = u32 (wp.sieveIndex + adv wp.sievingPrime wp.wheelIndex - sieveSize) := by
  obtain ⟨f, rfl⟩ : ∃ f, fuel = f + 1 := ⟨fuel - 1, by omega⟩
  obtain ⟨st, hst⟩ := wheelStep_isSome wp.wheelIndex hw
  have hnext := step_next wp.wheelIndex hw st hst
  have hadv : u32 (st.mult.val wp.sievingPrime + st.add) = adv wp.sievingPrime wp.wheelIndex := by
    simp [adv, hst]
  have hbit : st.bit = bitOf wp.wheelIndex := by simp [bitOf, hst]
  have hge : sieveSize ≤ wp.sieveIndex + adv wp.sievingPrime wp.wheelIndex := by omega
  have hco : crossOff wp.sievingPrime sieveSize (f + 1) wp.wheelIndex wp.sieveIndex m
      = some (wp.sieveIndex + adv wp.sievingPrime wp.wheelIndex, fallThrough wp.wheelIndex,
          m.andAt wp.sieveIndex (bitOf wp.wheelIndex)) := by
    rw [crossOff, hst]
    simp only [hadv, hbit, hnext]
    cases hfl : fastLoopOf wp.wheelIndex with
    | none => simp only; rw [if_pos hge]
    | some cb =>
      obtain ⟨c, body⟩ := cb
      simp only
      rw [fastLoop_done _ _ _ _ _ _ _ (by omega)]
      simp only
      rw [if_pos hge]
  refine ⟨_, by unfold sievePrime; rw [hco], ?_, ?_, rfl, rfl, ?_⟩
  · intro i hi
    simp only [Mem.andAt]
    rw [if_neg (by omega)]
  · rfl
  · show ptrDiffU32 _ _ = _
    unfold ptrDiffU32 u32
    omega

/-- Witness of the amended C15: the prime 7 with entry index 12 in a segment of 10 bytes. -/
theorem entry_beyond_segment_single_step_witness :
    ∃ r, sievePrime 88 10 ⟨0, 12, 2⟩ allSet = some r ∧
      (∀ i, i < 10 → r.2.bytes i = allSet.bytes i) ∧
      r.2.log = allSet.log ++ [(12, bitOf 2)] ∧
      r.1.sievingPrime = 0 ∧ r.1.wheelIndex = fallThrough 2 ∧
      r.1.sieveIndex = u32 (12 + adv 0 2 - 10) :=
  entry_beyond_segment_single_step 88 10 ⟨0, 12, 2⟩ allSet (by decide) (by decide) (by decide)

/-! ## The unrolled loops against single steps -/

theorem crossOffNoLoop_steps (x sieveSize : Nat) : ∀ k fuel w s m, w < 64 →
    (∀ j, 1 ≤ j → j ≤ k → pos x w s j < sieveSize) →
    crossOffNoLoop x sieveSize (fuel + k) w s m
      = crossOffNoLoop x sieveSize fuel (caseAt w k) (pos x w s k) (m.applyHits (hits x w s k)) := by
  intro k
  induction k with
  | zero =>
    intro fuel w s m _ _
    simp [caseAt_zero, pos, hits_zero, applyHits_nil]
  | succ k ih =>
    intro fuel w s m hw hlt
    obtain ⟨st, hst⟩ := wheelStep_isSome w hw
    have hadv : u32 (st.mult.val x + st.add) = adv x w := by simp [adv, hst]
    have hbit : st.bit = bitOf w := by simp [bitOf, hst]
    have hp1 : pos x w s 1 = s + adv x w := by simp [pos, caseAt_zero]
    have h1 := hlt 1 (Nat.le_refl 1) (by omega)
    rw [hp1] at h1
    have e : fuel + (k + 1) = (fuel + k) + 1 := by omega
    rw [e, crossOffNoLoop, hst]
    simp only [hadv, hbit]
    rw [if_neg (by omega), ih fuel (fallThrough w) _ _ (fallThrough_lt w hw)
      (fun j hj1 hj2 => by rw [← pos_shift]; exact hlt (j + 1) (by omega) (by omega)),
      ← pos_shift, hits_shift, applyHits_cons, fallThrough_eq, caseAt_caseAt, Nat.add_comm 1 k]

theorem crossOffNoLoop_eq (x sieveSize : Nat) (fuel n w s : Nat) (m : Mem) (hw : w < 64)
    (hex : ExitAt x sieveSize w s n) (hn : n ≤ fuel) :
    crossOffNoLoop x sieveSize fuel w s m
      = some (pos x w s n, caseAt w n, m.applyHits (hits x w s n)) := by
  obtain ⟨hn1, hlt, hge⟩ := hex
  obtain ⟨k, rfl⟩ : ∃ k, n = k + 1 := ⟨n - 1, by omega⟩
  obtain ⟨f, rfl⟩ : ∃ f, fuel = (f + 1) + k := ⟨fuel - (k + 1), by omega⟩
  rw [crossOffNoLoop_steps x sieveSize k (f + 1) w s m hw
    (fun j hj1 hj2 => hlt j hj1 (by omega))]
  have hwk := caseAt_lt w k hw
  obtain ⟨st, hst⟩ := wheelStep_isSome (caseAt w k) hwk
  have hnext := step_next (caseAt w k) hwk st hst
  have hadv : u32 (st.mult.val x + st.add) = adv x (caseAt w k) := by simp [adv, hst]
  have hbit : st.bit = bitOf (caseAt w k) := by simp [bitOf, hst]
  rw [crossOffNoLoop, hst]
  simp only [hadv, hbit, hnext]
  rw [pos] at hge
  rw [if_pos hge, fallThrough_eq, caseAt_caseAt, hits_succ, applyHits_append, pos]
  rfl

theorem sievePrimeNoLoop_eq (fuel sieveSize : Nat) (wp : WheelPrime) (m : Mem) (hv : Valid wp)
    (hf : 8 * sieveSize + 8 ≤ fuel) :
    sievePrimeNoLoop fuel sieveSize wp m
      = some (primeNext sieveSize wp, m.applyHits (primeHits sieveSize wp)) := by
  obtain ⟨hw, hx⟩ := hv
  obtain ⟨hex, hle⟩ := exitIndex_spec wp.sievingPrime sieveSize wp.wheelIndex wp.sieveIndex hx hw
  unfold sievePrimeNoLoop
  rw [crossOffNoLoop_eq wp.sievingPrime sieveSize fuel _ wp.wheelIndex wp.sieveIndex m hw hex
    (by omega)]
  rfl

theorem sieveBucketNoLoop_eq (fuel sieveSize : Nat) (hf : 8 * sieveSize + 8 ≤ fuel) :
    ∀ (bucket : Bucket) (m : Mem), (∀ wp ∈ bucket, Valid wp) →
    sieveBucketNoLoop fuel sieveSize bucket m
      = some (bucket.map (primeNext sieveSize),
          m.applyHits (bucket.flatMap (primeHits sieveSize))) := by
  intro bucket
  induction bucket with
  | nil => intro m _; rfl
  | cons wp rest ih =>
    intro m hv
    rw [sieveBucketNoLoop, sievePrimeNoLoop_eq fuel sieveSize wp m (hv wp (List.mem_cons_self _ _)) hf]
    simp only
    rw [ih _ (fun w hw => hv w (List.mem_cons_of_mem _ hw))]
    simp only [List.map_cons, List.flatMap_cons, applyHits_append]

theorem sieveNoLoop_eq (fuel sieveSize : Nat) (hf : 8 * sieveSize + 8 ≤ fuel) :
    ∀ (buckets : List Bucket) (m : Mem), (∀ b ∈ buckets, ∀ wp ∈ b, Valid wp) →
    sieveNoLoop fuel sieveSize buckets m
      = some (buckets.map (List.map (primeNext sieveSize)),
          m.applyHits (buckets.flatten.flatMap (primeHits sieveSize))) := by
  intro buckets
  induction buckets with
  | nil => intro m _; rfl
  | cons b rest ih =>
    intro m hv
    rw [sieveNoLoop, sieveBucketNoLoop_eq fuel sieveSize hf b m (hv b (List.mem_cons_self _ _))]
    simp only
    rw [ih _ (fun c hc => hv c (List.mem_cons_of_mem _ hc))]
    simp only [List.map_cons, List.flatten_cons, List.flatMap_append, applyHits_append]

/-- C12: the unrolled fast loops of `EratSmall::sieve` are equivalent to single steps.
For every sieve content, `sieveSize` and bucket list whose states have a wheel index in
0..63 and a stored `sievingPrime` value (`NoWrap`), `sieve` returns, and returns the same
states and the same memory (bytes and accesses) as the reference version `sieveNoLoop`
in which every inner while-loop is deleted. In particular one pass of the body of the
loop held by case `w`, taken when the loop condition holds, leaves the pointer and the
memory exactly where the 8 single steps of the reference version entered at case
`w + 1` (the case 1 of the group) leave them, back at case `w + 1`. -/
theorem fast_loops_equal_single_steps (fuel sieveSize : Nat) (buckets : List Bucket) (m : Mem)
    (hf : 8 * sieveSize + 8 ≤ fuel) (hv : ∀ b ∈ buckets, ∀ wp ∈ b, Valid wp) :
    (∃ r, sieve fuel sieveSize buckets m = some r ∧
      sieveNoLoop fuel sieveSize buckets m = some r) ∧
    ∀ x w c body s m1 f, NoWrap x → fastLoopOf w = some (c, body) →
      (s + c) + u32 (primeX6 x * 5) < sieveSize →
      execOps x body (s, m1) = (pos x (w + 1) s 8, m1.applyHits (hits x (w + 1) s 8)) ∧
      crossOffNoLoop x sieveSize (f + 8) (w + 1) s m1
        = crossOffNoLoop x sieveSize f (w + 1) (execOps x body (s, m1)).1
            (execOps x body (s, m1)).2 := by
  refine ⟨⟨_, sieve_eq fuel sieveSize hf buckets m hv,
    sieveNoLoop_eq fuel sieveSize hf buckets m hv⟩, ?_⟩
  intro x w c body s m1 f hx hfl hcond
  obtain ⟨hw, hw8⟩ := fastLoopOf_cases w c body hfl
  have hw1 : w + 1 < 64 := by omega
  obtain ⟨hb, hc⟩ := fast_body x w c body hx hfl s m1
  refine ⟨hb, ?_⟩
  rw [hc] at hcond
  rw [crossOffNoLoop_steps x sieveSize 8 f (w + 1) s m1 hw1
    (fun j _ hj2 => Nat.lt_of_le_of_lt (pos_mono x (w + 1) s hj2) hcond), hb,
    caseAt_eight (w + 1) 1]

/-- Witness of C12: the primes 7, 17 and 31 in a segment of 40 bytes. -/
theorem fast_loops_equal_single_steps_witness :
    (∃ r, sieve 328 40 [[⟨0, 1, 2⟩, ⟨1, 9, 31⟩], [⟨2, 0, 57⟩]] allSet = some r ∧
      sieveNoLoop 328 40 [[⟨0, 1, 2⟩, ⟨1, 9, 31⟩], [⟨2, 0, 57⟩]] allSet = some r) ∧
    ∀ x w c body s m1 f, NoWrap x → fastLoopOf w = some (c, body) →
      (s + c) + u32 (primeX6 x * 5) < 40 →
      execOps x body (s, m1) = (pos x (w + 1) s 8, m1.applyHits (hits x (w + 1) s 8)) ∧
      crossOffNoLoop x 40 (f + 8) (w + 1) s m1
        = crossOffNoLoop x 40 f (w + 1) (execOps x body (s, m1)).1
            (execOps x body (s, m1)).2 :=
  fast_loops_equal_single_steps 328 40 [[⟨0, 1, 2⟩, ⟨1, 9, 31⟩], [⟨2, 0, 57⟩]] allSet
    (by decide) (by decide)

/-! ## Masks of the single steps -/

theorem hits_masks (x w s n : Nat) :
    (hits x w s n).map Prod.snd = (List.range n).map fun j => bitOf (caseAt w j) := by
  simp only [hits, List.map_map]
  rfl

theorem sum_adv_eight (x w : Nat) :
    ((List.range 8).map fun j => adv x (fallThrough^[j] w)).sum = pos x w 0 8 := by
  simp only [caseAt_iterate]
  simp [List.range_succ, pos]
  omega

/-! ## Termination for every 32-bit value -/

theorem group_advances (x : Nat) (hx : x < 4294967296) : ∀ g, g < 8 →
    1 ≤ adv x (8 * g + 1) + adv x (8 * g + 2) + adv x (8 * g + 3) + adv x (8 * g + 6)
      + adv x (8 * g + 7) := by
  intro g hg
  have h7 : 1 ≤ adv x 57 + adv x 59 := by
    have e1 : adv x 59 = x := by
      simp only [adv, wheelStep, Mult.val, u32]; omega
    rcases Nat.eq_zero_or_pos x with h0 | h0
    · subst h0; decide
    · omega
  interval_cases g
  · simp only [adv, wheelStep, Mult.val, primeX4, primeX6, u32]; omega
  · simp only [adv, wheelStep, Mult.val, primeX4, primeX6, u32]; omega
  · simp only [adv, wheelStep, Mult.val, primeX4, primeX6, u32]; omega
  · simp only [adv, wheelStep, Mult.val, primeX4, primeX6, u32]; omega
  · simp only [adv, wheelStep, Mult.val, primeX4, primeX6, u32]; omega
  · simp only [adv, wheelStep, Mult.val, primeX4, primeX6, u32]; omega
  · simp only [adv, wheelStep, Mult.val, primeX4, primeX6, u32]; omega
  · show 1 ≤ adv x 57 + adv x 58 + adv x 59 + adv x 62 + adv x 63
    omega

theorem pos_ge_step (x w s j n : Nat) (hj : j < n) :
    pos x w s j + adv x (caseAt w j) ≤ pos x w s n := by
  have h := pos_mono x w s (Nat.succ_le_of_lt hj)
  rw [pos] at h
  exact h

theorem pos_eight_ge (x w s : Nat) (hx : x < 4294967296) (hw : w < 64) :
    s + 1 ≤ pos x w s 8 := by
  have hg := group_advances x hx (w / 8) (by omega)
  have key : ∀ k, k < 8 → s + adv x (8 * (w / 8) + k) ≤ pos x w s 8 := by
    intro k hk
    have h := pos_ge_step x w s ((k + 8 - w % 8) % 8) 8 (Nat.mod_lt _ (by omega))
    have e : caseAt w ((k + 8 - w % 8) % 8) = 8 * (w / 8) + k := by
      unfold caseAt; omega
    rw [e] at h
    have h0 : s ≤ pos x w s ((k + 8 - w % 8) % 8) := by
      have := pos_mono x w s (Nat.zero_le ((k + 8 - w % 8) % 8))
      simpa [pos] using this
    omega
  have k1 := key 1 (by omega)
  have k2 := key 2 (by omega)
  have k3 := key 3 (by omega)
  have k6 := key 6 (by omega)
  have k7 := key 7 (by omega)
  omega

theorem pos_grow_u32 (x w s : Nat) (hx : x < 4294967296) (hw : w < 64) :
    ∀ t, s + t ≤ pos x w s (8 * t) := by
  intro t
  induction t with
  | zero => simp [pos]
  | succ t ih =>
    have e : 8 * (t + 1) = 8 * t + 8 := by omega
    rw [e, pos_add, caseAt_eight]
    have := pos_eight_ge x w (pos x w s (8 * t)) hx hw
    omega

theorem exitIndex_spec_u32 (x sieveSize w s : Nat) (hx : x < 4294967296) (hw : w < 64) :
    ExitAt x sieveSize w s (exitIndex x sieveSize w s) ∧
      exitIndex x sieveSize w s ≤ 8 * (sieveSize - s) + 8 := by
  have hex : ∃ n, n < 8 * (sieveSize - s) + 9 ∧ (1 ≤ n ∧ sieveSize ≤ pos x w s n) := by
    refine ⟨8 * (sieveSize - s + 1), by omega, by omega, ?_⟩
    have := pos_grow_u32 x w s hx hw (sieveSize - s + 1)
    omega
  unfold exitIndex
  rw [dif_pos hex]
  have hs := Nat.find_spec hex
  refine ⟨⟨hs.2.1, ?_, hs.2.2⟩, by omega⟩
  intro j hj1 hj2
  have hm := Nat.find_min hex hj2
  by_contra hc
  exact hm ⟨by omega, hj1, by omega⟩

theorem execOps_pointer (x : Nat) : ∀ (ops : List Op) (s : Nat) (m : Mem),
    (execOps x ops (s, m)).1 = s + opsAdvance x ops := by
  intro ops
  induction ops with
  | nil => intro s m; rfl
  | cons op r ih =>
    intro s m
    cases op with
    | andC c k =>
      have e : execOps x (Op.andC c k :: r) (s, m) = execOps x r (s, m.andAt (s + c) k) := rfl
      rw [e, ih, opsAdvance]
    | andX4 c k =>
      have e : execOps x (Op.andX4 c k :: r) (s, m)
          = execOps x r (s, m.andAt (s + u32 (primeX4 x + c)) k) := rfl
      rw [e, ih, opsAdvance]
    | inc c =>
      have e : execOps x (Op.inc c :: r) (s, m) = execOps x r (s + u32 (primeX6 x + c), m) := rfl
      rw [e, ih, opsAdvance]
      omega

theorem body_advances (x w c : Nat) (body : List Op)
    (h : fastLoopOf w = some (c, body)) : 1 ≤ opsAdvance x body := by
  unfold fastLoopOf at h
  have hy : x * 3 % 4294967296 < 4294967296 := Nat.mod_lt _ (by omega)
  split at h <;> cases h <;> simp only [opsAdvance, primeX6, u32] <;>
    generalize x * 3 % 4294967296 = y at hy ⊢ <;>
    rcases Nat.eq_zero_or_pos y with h0 | h0 <;> omega

theorem fastLoop_terminates (x sieveSize w c : Nat) (body : List Op)
    (h : fastLoopOf w = some (c, body)) :
    ∀ fuel s m, sieveSize - s ≤ fuel →
      ∃ s2 m2, fastLoop x sieveSize c body fuel s m = some (s2, m2) ∧ s ≤ s2 := by
  have hadv := body_advances x w c body h
  intro fuel
  induction fuel with
  | zero =>
    intro s m hf
    refine ⟨s, m, ?_, Nat.le_refl s⟩
    rw [fastLoop, if_neg (by omega)]
  | succ f ih =>
    intro s m hf
    by_cases hcond : (s + c) + u32 (primeX6 x * 5) < sieveSize
    · have hp := execOps_pointer x body s m
      obtain ⟨s2, m2, h2, hle⟩ := ih (execOps x body (s, m)).1 (execOps x body (s, m)).2
        (by omega)
      exact ⟨s2, m2, by rw [fastLoop, if_pos hcond]; exact h2, by omega⟩
    · exact ⟨s, m, by rw [fastLoop, if_neg hcond], Nat.le_refl s⟩

theorem exitAt_exists_le (x sieveSize w s s2 n : Nat) (h : ExitAt x sieveSize w s n)
    (hle : s ≤ s2) : ∃ n2, n2 ≤ n ∧ ExitAt x sieveSize w s2 n2 := by
  obtain ⟨hn, _, hge⟩ := h
  have hex : ∃ k, 1 ≤ k ∧ sieveSize ≤ pos x w s2 k := by
    refine ⟨n, hn, ?_⟩
    obtain ⟨d, rfl⟩ : ∃ d, s2 = s + d := ⟨s2 - s, by omega⟩
    rw [pos_translate]
    omega
  refine ⟨Nat.find hex, Nat.find_min' hex ⟨hn, ?_⟩, (Nat.find_spec hex).1, ?_, (Nat.find_spec hex).2⟩
  · obtain ⟨d, rfl⟩ : ∃ d, s2 = s + d := ⟨s2 - s, by omega⟩
    rw [pos_translate]
    omega
  · intro j hj1 hj2
    have hm := Nat.find_min hex hj2
    by_contra hc
    exact hm ⟨hj1, by omega⟩

theorem crossOff_terminates (x sieveSize : Nat) :
    ∀ fuel n w s m, w < 64 → ExitAt x sieveSize w s n → n + (sieveSize - s) ≤ fuel →
      ∃ r, crossOff x sieveSize fuel w s m = some r := by
  intro fuel
  induction fuel with
  | zero =>
    intro n w s m _ hex hn
    have := hex.1
    omega
  | succ f ih =>
    intro n w s m hw hex hn
    obtain ⟨st, hst⟩ := wheelStep_isSome w hw
    have hadv : u32 (st.mult.val x + st.add) = adv x w := by simp [adv, hst]
    have hp1 : pos x w s 1 = s + adv x w := by simp [pos, caseAt_zero]
    rw [crossOff, hst]
    simp only [hadv]
    have hcont : ∀ s2 m2, s + adv x w ≤ s2 → ¬ sieveSize ≤ s + adv x w →
        ∃ r, crossOff x sieveSize f (fallThrough w) s2 m2 = some r := by
      intro s2 m2 hle hlt
      obtain ⟨hn2, hex1⟩ := exitAt_skip x sieveSize w s n 1 hex (by rw [hp1]; omega)
      rw [← fallThrough_eq, hp1] at hex1
      obtain ⟨n2, hn2le, hex2⟩ := exitAt_exists_le x sieveSize _ _ s2 _ hex1 hle
      exact ih n2 (fallThrough w) s2 m2 (fallThrough_lt w hw) hex2 (by omega)
    cases hfl : fastLoopOf w with
    | none =>
      simp only
      by_cases hge : sieveSize ≤ s + adv x w
      · rw [if_pos hge]; exact ⟨_, rfl⟩
      · rw [if_neg hge]
        exact hcont _ _ (Nat.le_refl _) hge
    | some cb =>
      obtain ⟨c, body⟩ := cb
      simp only
      have hn1 := hex.1
      obtain ⟨s2, m2, h2, hle⟩ := fastLoop_terminates x sieveSize w c body hfl f
        (s + adv x w) (m.andAt s st.bit) (by omega)
      rw [h2]
      simp only
      by_cases hge : sieveSize ≤ s2
      · rw [if_pos hge]; exact ⟨_, rfl⟩
      · rw [if_neg hge]
        exact hcont s2 m2 hle (by omega)

theorem fastLoop_fuel_succ (x sieveSize c : Nat) (body : List Op) :
    ∀ fuel s m r, fastLoop x sieveSize c body fuel s m = some r →
      fastLoop x sieveSize c body (fuel + 1) s m = some r := by
  intro fuel
  induction fuel with
  | zero =>
    intro s m r h
    rw [fastLoop] at h
    split at h
    · cases h
    · rename_i hc
      rw [fastLoop, if_neg hc]; exact h
  | succ f ih =>
    intro s m r h
    rw [fastLoop] at h
    split at h
    · rename_i hc
      rw [fastLoop, if_pos hc]
      exact ih _ _ r h
    · rename_i hc
      rw [fastLoop, if_neg hc]; exact h

theorem crossOff_fuel_succ (x sieveSize : Nat) :
    ∀ fuel w s m r, crossOff x sieveSize fuel w s m = some r →
      crossOff x sieveSize (fuel + 1) w s m = some r := by
  intro fuel
  induction fuel with
  | zero => intro w s m r h; rw [crossOff] at h; cases h
  | succ f ih =>
    intro w s m r h
    rw [crossOff] at h
    rw [crossOff]
    cases hst : wheelStep w with
    | none => rw [hst] at h; exact h
    | some st =>
      rw [hst] at h
      simp only at h ⊢
      cases hfl : fastLoopOf w with
      | none =>
        rw [hfl] at h
        simp only at h ⊢
        split at h
        · rename_i hc
          rw [if_pos hc]; exact h
        · rename_i hc
          rw [if_neg hc]; exact ih _ _ _ r h
      | some cb =>
        obtain ⟨c, body⟩ := cb
        rw [hfl] at h
        simp only at h ⊢
        cases hl : fastLoop x sieveSize c body f (s + u32 (st.mult.val x + st.add))
            (m.andAt s st.bit) with
        | none => rw [hl] at h; cases h
        | some sm =>
          obtain ⟨s2, m2⟩ := sm
          rw [hl] at h
          rw [fastLoop_fuel_succ x sieveSize c body f _ _ _ hl]
          simp only at h ⊢
          split at h
          · rename_i hc
            rw [if_pos hc]; exact h
          · rename_i hc
            rw [if_neg hc]; exact ih _ _ _ r h

theorem sievePrime_fuel_succ (fuel sieveSize : Nat) (wp : WheelPrime) (m : Mem)
    (r : WheelPrime × Mem) (h : sievePrime fuel sieveSize wp m = some r) :
    sievePrime (fuel + 1) sieveSize wp m = some r := by
  unfold sievePrime at h ⊢
  cases hc : crossOff wp.sievingPrime sieveSize fuel wp.wheelIndex wp.sieveIndex m with
  | none => rw [hc] at h; cases h
  | some t =>
    rw [hc] at h
    rw [crossOff_fuel_succ _ _ _ _ _ _ _ hc]
    exact h

theorem sieveBucket_fuel_succ (fuel sieveSize : Nat) : ∀ (bucket : Bucket) (m : Mem)
    (r : Bucket × Mem), sieveBucket fuel sieveSize bucket m = some r →
    sieveBucket (fuel + 1) sieveSize bucket m = some r := by
  intro bucket
  induction bucket with
  | nil => intro m r h; exact h
  | cons wp rest ih =>
    intro m r h
    rw [sieveBucket] at h ⊢
    cases hp : sievePrime fuel sieveSize wp m with
    | none => rw [hp] at h; cases h
    | some t =>
      obtain ⟨wp1, m1⟩ := t
      rw [hp] at h
      rw [sievePrime_fuel_succ _ _ _ _ _ hp]
      simp only at h ⊢
      cases hr : sieveBucket fuel sieveSize rest m1 with
      | none => rw [hr] at h; cases h
      | some t2 =>
        rw [hr] at h
        rw [ih _ _ hr]
        exact h

theorem sieve_fuel_succ (fuel sieveSize : Nat) : ∀ (buckets : List Bucket) (m : Mem)
    (r : List Bucket × Mem), sieve fuel sieveSize buckets m = some r →
    sieve (fuel + 1) sieveSize buckets m = some r := by
  intro buckets
  induction buckets with
  | nil => intro m r h; exact h
  | cons b rest ih =>
    intro m r h
    rw [sieve] at h ⊢
    cases hp : sieveBucket fuel sieveSize b m with
    | none => rw [hp] at h; cases h
    | some t =>
      obtain ⟨b1, m1⟩ := t
      rw [hp] at h
      rw [sieveBucket_fuel_succ _ _ _ _ _ hp]
      simp only at h ⊢
      cases hr : sieve fuel sieveSize rest m1 with
      | none => rw [hr] at h; cases h
      | some t2 =>
        rw [hr] at h
        rw [ih _ _ hr]
        exact h

theorem sieve_fuel_mono (sieveSize : Nat) (buckets : List Bucket) (m : Mem)
    (r : List Bucket × Mem) (fuel : Nat) (h : sieve fuel sieveSize buckets m = some r) :
    ∀ fuel1, fuel ≤ fuel1 → sieve fuel1 sieveSize buckets m = some r := by
  intro fuel1 hle
  induction hle with
  | refl => exact h
  | step _ ih => exact sieve_fuel_succ _ _ _ _ _ ih

theorem sievePrime_terminates (fuel sieveSize : Nat) (wp : WheelPrime) (m : Mem)
    (hx : wp.sievingPrime < 4294967296) (hf : 9 * sieveSize + 8 ≤ fuel) :
    ∃ r, sievePrime fuel sieveSize wp m = some r := by
  have hc : ∃ t, crossOff wp.sievingPrime sieveSize fuel wp.wheelIndex wp.sieveIndex m
      = some t := by
    by_cases hw : wp.wheelIndex < 64
    · obtain ⟨hex, hle⟩ :=
        exitIndex_spec_u32 wp.sievingPrime sieveSize wp.wheelIndex wp.sieveIndex hx hw
      exact crossOff_terminates wp.sievingPrime sieveSize fuel _ _ _ m hw hex (by omega)
    · obtain ⟨f, rfl⟩ : ∃ f, fuel = f + 1 := ⟨fuel - 1, by omega⟩
      rw [crossOff, wheelStep_none _ (by omega)]
      exact ⟨_, rfl⟩
  obtain ⟨t, ht⟩ := hc
  unfold sievePrime
  rw [ht]
  exact ⟨_, rfl⟩

theorem sieveBucket_terminates (fuel sieveSize : Nat) (hf : 9 * sieveSize + 8 ≤ fuel) :
    ∀ (bucket : Bucket) (m : Mem), (∀ wp ∈ bucket, wp.sievingPrime < 4294967296) →
    ∃ r, sieveBucket fuel sieveSize bucket m = some r := by
  intro bucket
  induction bucket with
  | nil => intro m _; exact ⟨_, rfl⟩
  | cons wp rest ih =>
    intro m hv
    obtain ⟨r1, h1⟩ := sievePrime_terminates fuel sieveSize wp m (hv wp (List.mem_cons_self _ _)) hf
    obtain ⟨r2, h2⟩ := ih r1.2 (fun w hw => hv w (List.mem_cons_of_mem _ hw))
    rw [sieveBucket, h1]
    simp only
    rw [h2]
    exact ⟨_, rfl⟩

theorem sieve_terminates_u32 (fuel sieveSize : Nat) (hf : 9 * sieveSize + 8 ≤ fuel) :
    ∀ (buckets : List Bucket) (m : Mem),
    (∀ b ∈ buckets, ∀ wp ∈ b, wp.sievingPrime < 4294967296) →
    ∃ r, sieve fuel sieveSize buckets m = some r := by
  intro buckets
  induction buckets with
  | nil => intro m _; exact ⟨_, rfl⟩
  | cons b rest ih =>
    intro m hv
    obtain ⟨r1, h1⟩ := sieveBucket_terminates fuel sieveSize hf b m (hv b (List.mem_cons_self _ _))
    obtain ⟨r2, h2⟩ := ih r1.2 (fun c hc => hv c (List.mem_cons_of_mem _ hc))
    rw [sieve, h1]
    simp only
    rw [h2]
    exact ⟨_, rfl⟩

/-- C17: `EratSmall::sieve` terminates on every input. For every `sieveSize`, every
finite bucket list and every `uint32_t` value of `sievingPrime` (0 included, and whatever
the wheel index and the sieve index are), `sieve` returns, with the same result for every
fuel from `9 * sieveSize + 8` on; the 8 consecutive single steps from any case advance
the byte position by at least 1. For stored values `p / 15` of a 32-bit `p` and wheel
indexes in 0..63 (`Valid`), the loop of each prime exits after at least one and at most
`8 * (sieveSize - sieveIndex) + 8` single steps (accesses). -/
theorem sieve_terminates (sieveSize : Nat) (buckets : List Bucket) (m : Mem)
    (hv : ∀ b ∈ buckets, ∀ wp ∈ b, wp.sievingPrime < 4294967296) :
    (∃ r, ∀ fuel, 9 * sieveSize + 8 ≤ fuel → sieve fuel sieveSize buckets m = some r) ∧
    (∀ x w, x < 4294967296 → w < 64 →
      1 ≤ ((List.range 8).map fun j => adv x (fallThrough^[j] w)).sum) ∧
    ((∀ b ∈ buckets, ∀ wp ∈ b, Valid wp) → ∀ b ∈ buckets, ∀ wp ∈ b, ∀ m1, ∃ r1 new,
      (∀ fuel, 8 * sieveSize + 8 ≤ fuel → sievePrime fuel sieveSize wp m1 = some r1) ∧
      r1.2.log = m1.log ++ new ∧ 1 ≤ new.length ∧
      new.length ≤ 8 * (sieveSize - wp.sieveIndex) + 8) := by
  refine ⟨?_, ?_, ?_⟩
  · obtain ⟨r, hr⟩ := sieve_terminates_u32 (9 * sieveSize + 8) sieveSize (Nat.le_refl _) buckets m hv
    exact ⟨r, fun fuel hf => sieve_fuel_mono sieveSize buckets m r _ hr fuel hf⟩
  · intro x w hx hw
    rw [sum_adv_eight]
    have := pos_eight_ge x w 0 hx hw
    omega
  · intro hval b hb wp hwp m1
    have hvw := hval b hb wp hwp
    obtain ⟨hex, hle⟩ :=
      exitIndex_spec wp.sievingPrime sieveSize wp.wheelIndex wp.sieveIndex hvw.2 hvw.1
    refine ⟨_, primeHits sieveSize wp, fun fuel hf => sievePrime_eq fuel sieveSize wp m1 hvw hf,
      applyHits_log _ m1, ?_, ?_⟩
    · show 1 ≤ (hits _ _ _ _).length
      rw [hits_length]; exact hex.1
    · show (hits _ _ _ _).length ≤ _
      rw [hits_length]; exact hle

/-- Witness of C17: the primes 7, 11 and 13 (`sievingPrime = 0`) in a segment of 40
bytes. -/
theorem sieve_terminates_witness :
    (∃ r, ∀ fuel, 9 * 40 + 8 ≤ fuel →
      sieve fuel 40 [[⟨0, 1, 2⟩, ⟨0, 3, 11⟩], [⟨0, 5, 20⟩]] allSet = some r) ∧
    (∀ b ∈ [[(⟨0, 1, 2⟩ : WheelPrime), ⟨0, 3, 11⟩], [⟨0, 5, 20⟩]], ∀ wp ∈ b, ∀ m1, ∃ r1 new,
      (∀ fuel, 8 * 40 + 8 ≤ fuel → sievePrime fuel 40 wp m1 = some r1) ∧
      r1.2.log = m1.log ++ new ∧ 1 ≤ new.length ∧
      new.length ≤ 8 * (40 - wp.sieveIndex) + 8) :=
  ⟨(sieve_terminates 40 [[⟨0, 1, 2⟩, ⟨0, 3, 11⟩], [⟨0, 5, 20⟩]] allSet (by decide)).1,
    (sieve_terminates 40 [[⟨0, 1, 2⟩, ⟨0, 3, 11⟩], [⟨0, 5, 20⟩]] allSet (by decide)).2.2
      (by decide)⟩

/-! ## Accesses as a trace, for every 32-bit value -/

theorem execOps_hits (x : Nat) : ∀ (ops : List Op) (s : Nat) (m : Mem),
    execOps x ops (s, m) = (s + opsAdvance x ops, m.applyHits (opsHits x ops s)) := by
  intro ops
  induction ops with
  | nil => intro s m; rfl
  | cons op r ih =>
    intro s m
    cases op with
    | andC c k =>
      have e : execOps x (Op.andC c k :: r) (s, m) = execOps x r (s, m.andAt (s + c) k) := rfl
      rw [e, ih, opsAdvance, opsHits, applyHits_cons]
    | andX4 c k =>
      have e : execOps x (Op.andX4 c k :: r) (s, m)
          = execOps x r (s, m.andAt (s + u32 (primeX4 x + c)) k) := rfl
      rw [e, ih, opsAdvance, opsHits, applyHits_cons]
    | inc c =>
      have e : execOps x (Op.inc c :: r) (s, m) = execOps x r (s + u32 (primeX6 x + c), m) := rfl
      rw [e, ih, opsAdvance, opsHits, Nat.add_assoc]

theorem opsHits_masks (x : Nat) : ∀ (ops : List Op) (s : Nat) (ab : Nat × Nat),
    (opsHits x ops s).map Prod.snd = (symHits ops ab).map fun h => h.2.2 := by
  intro ops
  induction ops with
  | nil => intro s ab; rfl
  | cons op r ih =>
    intro s ab
    cases op with
    | andC c k => simp only [opsHits, symHits, List.map_cons, ih s ab]
    | andX4 c k => simp only [opsHits, symHits, List.map_cons, ih s ab]
    | inc c => simp only [opsHits, symHits]; exact ih _ _

theorem body_masks (x w c s : Nat) (body : List Op) (h : fastLoopOf w = some (c, body)) :
    (opsHits x body s).map Prod.snd = maskSeq (w + 1) 8 := by
  obtain ⟨hw, _⟩ := fastLoopOf_cases w c body h
  obtain ⟨_, _, _, hh⟩ := fastLoopOf_sym w hw c body h
  rw [opsHits_masks x body s (0, 0), hh, List.map_map]
  rfl

theorem maskSeq_eq_hits (w n : Nat) : maskSeq w n = (hits 0 w 0 n).map Prod.snd :=
  (hits_masks 0 w 0 n).symm

theorem maskSeq_add (w a b : Nat) :
    maskSeq w (a + b) = maskSeq w a ++ maskSeq (caseAt w a) b := by
  rw [maskSeq_eq_hits, hits_add, List.map_append, ← maskSeq_eq_hits, hits_masks]
  rfl

theorem maskSeq_one (w : Nat) : maskSeq w 1 = [bitOf w] := by
  simp [maskSeq, List.range_succ, caseAt_zero]

theorem maskSeq_length (w n : Nat) : (maskSeq w n).length = n := by
  simp [maskSeq]

theorem fastLoop_trace (x sieveSize w c : Nat) (body : List Op)
    (h : fastLoopOf w = some (c, body)) :
    ∀ fuel s, ∃ o : Option (Nat × List (Nat × Nat)),
      (∀ m, fastLoop x sieveSize c body fuel s m = o.map fun t => (t.1, m.applyHits t.2)) ∧
      ∀ t, o = some t → ∃ k, t.2.map Prod.snd = maskSeq (w + 1) (8 * k) := by
  intro fuel
  induction fuel with
  | zero =>
    intro s
    by_cases hcond : (s + c) + u32 (primeX6 x * 5) < sieveSize
    · refine ⟨none, fun m => by rw [fastLoop, if_pos hcond]; rfl, fun t ht => by cases ht⟩
    · refine ⟨some (s, []), fun m => by rw [fastLoop, if_neg hcond]; rfl, ?_⟩
      intro t ht
      cases ht
      exact ⟨0, rfl⟩
  | succ f ih =>
    intro s
    by_cases hcond : (s + c) + u32 (primeX6 x * 5) < sieveSize
    · obtain ⟨o, ho, hinv⟩ := ih (s + opsAdvance x body)
      refine ⟨o.map fun t => (t.1, opsHits x body s ++ t.2), ?_, ?_⟩
      · intro m
        rw [fastLoop, if_pos hcond, execOps_hits, ho]
        cases o with
        | none => rfl
        | some t => simp [applyHits_append]
      · intro t ht
        cases o with
        | none => cases ht
        | some t0 =>
          simp only [Option.map_some', Option.some.injEq] at ht
          subst ht
          obtain ⟨k, hk⟩ := hinv t0 rfl
          refine ⟨k + 1, ?_⟩
          have e : 8 * (k + 1) = 8 + 8 * k := by omega
          rw [List.map_append, body_masks x w c s body h, hk, e, maskSeq_add,
            caseAt_eight (w + 1) 1]
    · refine ⟨some (s, []), fun m => by rw [fastLoop, if_neg hcond]; rfl, ?_⟩
      intro t ht
      cases ht
      exact ⟨0, rfl⟩

theorem crossOff_trace (x sieveSize : Nat) :
    ∀ fuel w s, ∃ o : Option (Nat × Nat × List (Nat × Nat)),
      (∀ m, crossOff x sieveSize fuel w s m
        = o.map fun t => (t.1, t.2.1, m.applyHits t.2.2)) ∧
      (w < 64 → ∀ t, o = some t → 1 ≤ t.2.2.length ∧
        t.2.2.map Prod.snd = maskSeq w t.2.2.length ∧ t.2.1 = caseAt w t.2.2.length) := by
  intro fuel
  induction fuel with
  | zero =>
    intro w s
    exact ⟨none, fun m => rfl, fun _ t ht => by cases ht⟩
  | succ f ih =>
    intro w s
    cases hst : wheelStep w with
    | none =>
      refine ⟨some (s, w, []), fun m => by rw [crossOff, hst]; rfl, ?_⟩
      intro hw
      obtain ⟨st, hst2⟩ := wheelStep_isSome w hw
      rw [hst] at hst2
      cases hst2
    | some st =>
      have hbit : st.bit = bitOf w := by simp [bitOf, hst]
      -- the trace of the steps that follow the first one
      have hcons : ∀ (n : Nat) (T : List (Nat × Nat)), T.map Prod.snd = maskSeq (fallThrough w) n →
          ((s, bitOf w) :: T).map Prod.snd = maskSeq w (n + 1) := by
        intro n T hT
        rw [List.map_cons, hT, Nat.add_comm n 1, maskSeq_add, maskSeq_one, ← fallThrough_eq]
        rfl
      have hnext : w < 64 → st.next = caseAt w 1 := fun hw => by
        rw [step_next w hw st hst, fallThrough_eq]
      cases hfl : fastLoopOf w with
      | none =>
        by_cases hge : sieveSize ≤ s + u32 (st.mult.val x + st.add)
        · refine ⟨some (s + u32 (st.mult.val x + st.add), st.next, [(s, bitOf w)]), ?_, ?_⟩
          · intro m
            rw [crossOff, hst]
            simp only [hfl, hbit]
            rw [if_pos hge]
            rfl
          · intro hw t ht
            cases ht
            exact ⟨Nat.le_refl 1, by simpa using (hcons 0 [] rfl), hnext hw⟩
        · obtain ⟨o, ho, hinv⟩ := ih (fallThrough w) (s + u32 (st.mult.val x + st.add))
          refine ⟨o.map fun t => (t.1, t.2.1, (s, bitOf w) :: t.2.2), ?_, ?_⟩
          · intro m
            rw [crossOff, hst]
            simp only [hfl, hbit]
            rw [if_neg hge, ho]
            cases o with
            | none => rfl
            | some t => rfl
          · intro hw t ht
            cases o with
            | none => cases ht
            | some t0 =>
              simp only [Option.map_some', Option.some.injEq] at ht
              subst ht
              obtain ⟨h1, h2, h3⟩ := hinv (fallThrough_lt w hw) t0 rfl
              refine ⟨by simp, ?_, ?_⟩
              · simp only [List.length_cons]
                exact hcons _ _ h2
              · simp only [List.length_cons]
                rw [h3, fallThrough_eq, caseAt_caseAt, Nat.add_comm 1]
      | some cb =>
        obtain ⟨c, body⟩ := cb
        obtain ⟨_, hw8⟩ := fastLoopOf_cases w c body hfl
        have hft : fallThrough w = w + 1 := by unfold fallThrough; split <;> omega
        obtain ⟨ol, hol, hlinv⟩ := fastLoop_trace x sieveSize w c body hfl f
          (s + u32 (st.mult.val x + st.add))
        cases ol with
        | none =>
          refine ⟨none, ?_, fun _ t ht => by cases ht⟩
          intro m
          rw [crossOff, hst]
          simp only [hfl, hbit]
          rw [hol]
          rfl
        | some tl =>
          obtain ⟨k, hk⟩ := hlinv tl rfl
          rw [← hft] at hk
          have hlen : tl.2.length = 8 * k := by
            have := congrArg List.length hk
            simpa [maskSeq_length] using this
          by_cases hge : sieveSize ≤ tl.1
          · refine ⟨some (tl.1, st.next, (s, bitOf w) :: tl.2), ?_, ?_⟩
            · intro m
              rw [crossOff, hst]
              simp only [hfl, hbit]
              rw [hol]
              simp only [Option.map_some']
              rw [if_pos hge]
              rfl
            · intro hw t ht
              cases ht
              refine ⟨by simp, ?_, ?_⟩
              · simp only [List.length_cons, hlen]
                exact hcons _ _ hk
              · simp only [List.length_cons, hlen]
                rw [hnext hw, Nat.add_comm (8 * k) 1, ← caseAt_caseAt]
                unfold caseAt
                omega
          · obtain ⟨o, ho, hinv⟩ := ih (fallThrough w) tl.1
            refine ⟨o.map fun t => (t.1, t.2.1, (s, bitOf w) :: (tl.2 ++ t.2.2)), ?_, ?_⟩
            · intro m
              rw [crossOff, hst]
              simp only [hfl, hbit]
              rw [hol]
              simp only [Option.map_some']
              rw [if_neg hge, ho]
              cases o with
              | none => rfl
              | some t => simp [applyHits_append, applyHits_cons]
            · intro hw t ht
              cases o with
              | none => cases ht
              | some t0 =>
                simp only [Option.map_some', Option.some.injEq] at ht
                subst ht
                obtain ⟨h1, h2, h3⟩ := hinv (fallThrough_lt w hw) t0 rfl
                have hc8 : caseAt (fallThrough w) (8 * k) = fallThrough w := caseAt_eight _ k
                refine ⟨by simp, ?_, ?_⟩
                · simp only [List.length_cons, List.length_append, hlen]
                  apply hcons
                  rw [List.map_append, hk, h2, maskSeq_add, hc8]
                · simp only [List.length_cons, List.length_append, hlen]
                  rw [h3, fallThrough_eq]
                  unfold caseAt
                  omega

/-! ## Order, groups and independence -/

theorem sievePrime_any (fuel sieveSize : Nat) (wp : WheelPrime)
    (ht : ∃ r, sievePrime fuel sieveSize wp allSet = some r) :
    (∀ m, sievePrime fuel sieveSize wp m
      = some (primeAfter fuel sieveSize wp, m.applyHits (primeTrace fuel sieveSize wp))) ∧
    (primeAfter fuel sieveSize wp).sievingPrime = wp.sievingPrime ∧
    (wp.wheelIndex < 64 → 1 ≤ (primeTrace fuel sieveSize wp).length ∧
      (primeTrace fuel sieveSize wp).map Prod.snd
        = maskSeq wp.wheelIndex (primeTrace fuel sieveSize wp).length ∧
      (primeAfter fuel sieveSize wp).wheelIndex
        = caseAt wp.wheelIndex (primeTrace fuel sieveSize wp).length) := by
  obtain ⟨o, ho, hinv⟩ := crossOff_trace wp.sievingPrime sieveSize fuel wp.wheelIndex wp.sieveIndex
  have hall : ∀ m, sievePrime fuel sieveSize wp m
      = o.map fun t => (WheelPrime.mk wp.sievingPrime (ptrDiffU32 t.1 sieveSize) t.2.1,
          m.applyHits t.2.2) := by
    intro m
    unfold sievePrime
    rw [ho]
    cases o with
    | none => rfl
    | some t => rfl
  cases o with
  | none =>
    obtain ⟨r, hr⟩ := ht
    rw [hall] at hr
    cases hr
  | some t =>
    have h0 := hall allSet
    simp only [Option.map_some'] at h0
    have e1 : primeTrace fuel sieveSize wp = t.2.2 := by
      unfold primeTrace
      rw [h0]
      simp only [applyHits_log]
      rfl
    have e2 : primeAfter fuel sieveSize wp
        = WheelPrime.mk wp.sievingPrime (ptrDiffU32 t.1 sieveSize) t.2.1 := by
      unfold primeAfter
      rw [h0]
    refine ⟨fun m => by rw [hall m, e1, e2]; rfl, by rw [e2], ?_⟩
    intro hw
    rw [e1, e2]
    exact hinv hw t rfl

theorem sieveBucket_any (fuel sieveSize : Nat) (hf : 9 * sieveSize + 8 ≤ fuel) :
    ∀ (bucket : Bucket) (m : Mem), (∀ wp ∈ bucket, wp.sievingPrime < 4294967296) →
    sieveBucket fuel sieveSize bucket m
      = some (bucket.map (primeAfter fuel sieveSize),
          m.applyHits (bucket.flatMap (primeTrace fuel sieveSize))) := by
  intro bucket
  induction bucket with
  | nil => intro m _; rfl
  | cons wp rest ih =>
    intro m hv
    have ht := sievePrime_terminates fuel sieveSize wp allSet (hv wp (List.mem_cons_self _ _)) hf
    rw [sieveBucket, (sievePrime_any fuel sieveSize wp ht).1 m]
    simp only
    rw [ih _ (fun w hw => hv w (List.mem_cons_of_mem _ hw))]
    simp only [List.map_cons, List.flatMap_cons, applyHits_append]

theorem sieve_any (fuel sieveSize : Nat) (hf : 9 * sieveSize + 8 ≤ fuel) :
    ∀ (buckets : List Bucket) (m : Mem),
    (∀ b ∈ buckets, ∀ wp ∈ b, wp.sievingPrime < 4294967296) →
    sieve fuel sieveSize buckets m
      = some (buckets.map (List.map (primeAfter fuel sieveSize)),
          m.applyHits (buckets.flatten.flatMap (primeTrace fuel sieveSize))) := by
  intro buckets
  induction buckets with
  | nil => intro m _; rfl
  | cons b rest ih =>
    intro m hv
    rw [sieve, sieveBucket_any fuel sieveSize hf b m (hv b (List.mem_cons_self _ _))]
    simp only
    rw [ih _ (fun c hc => hv c (List.mem_cons_of_mem _ hc))]
    simp only [List.map_cons, List.flatten_cons, List.flatMap_append, applyHits_append]

/-- C14: steps execute in cyclic order from the entry point and the exit records the
successor. For every wheel index `8 * g + k` in 0..63, every `uint32_t` value of
`sievingPrime` and every entry index, `sieve` makes `h >= 1` accesses for the prime, the
masks applied are, in order, those of the cases `8 * g + ((k + j) mod 8)` for
`j = 0 .. h - 1`, and the wheel index stored on exit is `8 * g + ((k + h) mod 8)`. -/
theorem steps_in_cyclic_order (fuel sieveSize g k : Nat) (wp : WheelPrime) (m : Mem)
    (hf : 9 * sieveSize + 8 ≤ fuel) (hg : g < 8) (hk : k < 8)
    (hw : wp.wheelIndex = 8 * g + k) (hx : wp.sievingPrime < 4294967296) :
    ∃ r h new, sievePrime fuel sieveSize wp m = some r ∧ 1 ≤ h ∧
      r.2.log = m.log ++ new ∧ new.length = h ∧
      new.map Prod.snd = (List.range h).map (fun j => bitOf (8 * g + (k + j) % 8)) ∧
      r.1.wheelIndex = 8 * g + (k + h) % 8 := by
  have ht := sievePrime_terminates fuel sieveSize wp allSet hx hf
  obtain ⟨hany, _, hinv⟩ := sievePrime_any fuel sieveSize wp ht
  obtain ⟨h1, h2, h3⟩ := hinv (by omega)
  have hc : ∀ j, caseAt wp.wheelIndex j = 8 * g + (k + j) % 8 := by
    intro j
    rw [hw]
    unfold caseAt
    omega
  refine ⟨_, (primeTrace fuel sieveSize wp).length, primeTrace fuel sieveSize wp, hany m, h1,
    applyHits_log _ m, rfl, ?_, ?_⟩
  · rw [h2]
    unfold maskSeq
    apply List.map_congr_left
    intro j _
    rw [hc]
  · show (primeAfter fuel sieveSize wp).wheelIndex = _
    rw [h3, hc]

/-- Witness of C14: the prime 7 entered at 49 (case 2) in a segment of 10 bytes. -/
theorem steps_in_cyclic_order_witness :
    ∃ r h new, sievePrime 98 10 ⟨0, 1, 2⟩ allSet = some r ∧ 1 ≤ h ∧
      r.2.log = allSet.log ++ new ∧ new.length = h ∧
      new.map Prod.snd = (List.range h).map (fun j => bitOf (8 * 0 + (2 + j) % 8)) ∧
      r.1.wheelIndex = 8 * 0 + (2 + h) % 8 :=
  steps_in_cyclic_order 98 10 0 2 ⟨0, 1, 2⟩ allSet (by decide) (by decide) (by decide)
    (by decide) (by decide)

/-- C16: `EratSmall::sieve` keeps every sieving prime in its wheel group. For every
bucket list whose states have a wheel index in 0..63 (and a `uint32_t` value of
`sievingPrime`), the state stored at each place of the list has a wheel index in 0..63
with the same value of `wheelIndex / 8` and the same `sievingPrime`; the number of
buckets, the number of primes of each bucket and the order of the primes are
unchanged. -/
theorem sieve_keeps_wheel_group (fuel sieveSize : Nat) (buckets : List Bucket) (m : Mem)
    (hf : 9 * sieveSize + 8 ≤ fuel)
    (hv : ∀ b ∈ buckets, ∀ wp ∈ b, wp.wheelIndex < 64 ∧ wp.sievingPrime < 4294967296) :
    ∃ r, sieve fuel sieveSize buckets m = some r ∧
      List.Forall₂ (List.Forall₂ fun wp wp1 => wp1.wheelIndex < 64 ∧
        wp1.wheelIndex / 8 = wp.wheelIndex / 8 ∧ wp1.sievingPrime = wp.sievingPrime)
        buckets r.1 ∧
      r.1.length = buckets.length ∧
      r.1.map List.length = buckets.map List.length ∧
      r.1.map (List.map fun wp => wp.sievingPrime)
        = buckets.map (List.map fun wp => wp.sievingPrime) := by
  have hx : ∀ b ∈ buckets, ∀ wp ∈ b, wp.sievingPrime < 4294967296 :=
    fun b hb wp hwp => (hv b hb wp hwp).2
  have hkey : ∀ b ∈ buckets, ∀ wp ∈ b,
      (primeAfter fuel sieveSize wp).sievingPrime = wp.sievingPrime ∧
      (primeAfter fuel sieveSize wp).wheelIndex < 64 ∧
      (primeAfter fuel sieveSize wp).wheelIndex / 8 = wp.wheelIndex / 8 := by
    intro b hb wp hwp
    have ht := sievePrime_terminates fuel sieveSize wp allSet (hx b hb wp hwp) hf
    obtain ⟨_, h1, hinv⟩ := sievePrime_any fuel sieveSize wp ht
    obtain ⟨_, _, h3⟩ := hinv (hv b hb wp hwp).1
    refine ⟨h1, ?_, ?_⟩
    · rw [h3]; exact caseAt_lt _ _ (hv b hb wp hwp).1
    · rw [h3]; unfold caseAt; omega
  refine ⟨_, sieve_any fuel sieveSize hf buckets m hx, ?_, ?_, ?_, ?_⟩
  · simp only [List.forall₂_map_right_iff, List.forall₂_same]
    intro b hb wp hwp
    obtain ⟨h1, h2, h3⟩ := hkey b hb wp hwp
    exact ⟨h2, h3, h1⟩
  · simp
  · simp [List.map_map, Function.comp]
  · simp only [List.map_map]
    apply List.map_congr_left
    intro b hb
    simp only [Function.comp, List.map_map]
    apply List.map_congr_left
    intro wp hwp
    exact (hkey b hb wp hwp).1

/-- Witness of C16: the primes 7, 17 and 31 in a segment of 40 bytes. -/
theorem sieve_keeps_wheel_group_witness :
    ∃ r, sieve 368 40 [[⟨0, 1, 2⟩, ⟨1, 9, 31⟩], [⟨2, 0, 57⟩]] allSet = some r ∧
      List.Forall₂ (List.Forall₂ fun (wp wp1 : WheelPrime) => wp1.wheelIndex < 64 ∧
        wp1.wheelIndex / 8 = wp.wheelIndex / 8 ∧ wp1.sievingPrime = wp.sievingPrime)
        [[⟨0, 1, 2⟩, ⟨1, 9, 31⟩], [⟨2, 0, 57⟩]] r.1 ∧
      r.1.length = [[(⟨0, 1, 2⟩ : WheelPrime), ⟨1, 9, 31⟩], [⟨2, 0, 57⟩]].length ∧
      r.1.map List.length
        = [[(⟨0, 1, 2⟩ : WheelPrime), ⟨1, 9, 31⟩], [⟨2, 0, 57⟩]].map List.length ∧
      r.1.map (List.map fun wp => wp.sievingPrime)
        = [[(⟨0, 1, 2⟩ : WheelPrime), ⟨1, 9, 31⟩], [⟨2, 0, 57⟩]].map
            (List.map fun wp => wp.sievingPrime) :=
  sieve_keeps_wheel_group 368 40 [[⟨0, 1, 2⟩, ⟨1, 9, 31⟩], [⟨2, 0, 57⟩]] allSet (by decide)
    (by decide)

/-- C18: the state update of `EratSmall::sieve` does not depend on the sieve contents.
For any two memories and the same bucket list (any states, `sievingPrime` a `uint32_t`
value), both runs return, the states of every prime after `sieve` are the same in both
runs, and the state at each place of the list is the state that `sieve` stores when
that prime is sieved alone, over any memory. -/
theorem sieve_states_independent_of_contents (fuel sieveSize : Nat) (buckets : List Bucket)
    (m1 m2 : Mem) (hf : 9 * sieveSize + 8 ≤ fuel)
    (hv : ∀ b ∈ buckets, ∀ wp ∈ b, wp.sievingPrime < 4294967296) :
    ∃ r1 r2, sieve fuel sieveSize buckets m1 = some r1 ∧
      sieve fuel sieveSize buckets m2 = some r2 ∧ r1.1 = r2.1 ∧
      List.Forall₂ (List.Forall₂ fun wp wp1 => ∀ m3, ∃ m4,
        sieve fuel sieveSize [[wp]] m3 = some ([[wp1]], m4)) buckets r1.1 := by
  refine ⟨_, _, sieve_any fuel sieveSize hf buckets m1 hv, sieve_any fuel sieveSize hf buckets m2 hv,
    rfl, ?_⟩
  simp only [List.forall₂_map_right_iff, List.forall₂_same]
  intro b hb wp hwp m3
  refine ⟨_, sieve_any fuel sieveSize hf [[wp]] m3 ?_⟩
  intro c hc w hw
  simp only [List.mem_singleton] at hc
  subst hc
  simp only [List.mem_singleton] at hw
  subst hw
  exact hv b hb w hwp

/-- Witness of C18: the primes 7, 17 and 31 in a segment of 40 bytes, over the memory with
every bit set and over the memory whose byte `i` holds `i % 256`. -/
theorem sieve_states_independent_of_contents_witness :
    ∃ r1 r2, sieve 368 40 [[⟨0, 1, 2⟩, ⟨1, 9, 31⟩], [⟨2, 0, 57⟩]] allSet = some r1 ∧
      sieve 368 40 [[⟨0, 1, 2⟩, ⟨1, 9, 31⟩], [⟨2, 0, 57⟩]]
        { bytes := fun i => i % 256, log := [] } = some r2 ∧ r1.1 = r2.1 ∧
      List.Forall₂ (List.Forall₂ fun wp wp1 => ∀ m3, ∃ m4,
        sieve 368 40 [[wp]] m3 = some ([[wp1]], m4))
        [[⟨0, 1, 2⟩, ⟨1, 9, 31⟩], [⟨2, 0, 57⟩]] r1.1 :=
  sieve_states_independent_of_contents 368 40 [[⟨0, 1, 2⟩, ⟨1, 9, 31⟩], [⟨2, 0, 57⟩]] allSet
    { bytes := fun i => i % 256, log := [] } (by decide) (by decide)

/-- C19: the segment produced by `EratSmall::sieve` does not depend on the order of the
sieving primes. For every memory and every two bucket lists that hold the same states
(any states, `sievingPrime` a `uint32_t` value) in a different order or in different
buckets, both runs return and the final bytes are equal. -/
theorem sieve_bytes_independent_of_order (fuel sieveSize : Nat) (buckets1 buckets2 : List Bucket)
    (m : Mem) (hf : 9 * sieveSize + 8 ≤ fuel)
    (hv : ∀ b ∈ buckets1, ∀ wp ∈ b, wp.sievingPrime < 4294967296)
    (hperm : buckets1.flatten.Perm buckets2.flatten) :
    ∃ r1 r2, sieve fuel sieveSize buckets1 m = some r1 ∧
      sieve fuel sieveSize buckets2 m = some r2 ∧ ∀ i, r1.2.bytes i = r2.2.bytes i := by
  have hv2 : ∀ b ∈ buckets2, ∀ wp ∈ b, wp.sievingPrime < 4294967296 := by
    intro b hb wp hwp
    have h1 : wp ∈ buckets1.flatten := hperm.symm.subset (List.mem_flatten.mpr ⟨b, hb, hwp⟩)
    obtain ⟨b1, hb1, hwp1⟩ := List.mem_flatten.mp h1
    exact hv b1 hb1 wp hwp1
  refine ⟨_, _, sieve_any fuel sieveSize hf buckets1 m hv, sieve_any fuel sieveSize hf buckets2 m hv2,
    ?_⟩
  intro i
  exact applyHits_perm (List.Perm.flatMap_right (primeTrace fuel sieveSize) hperm) m i

/-- Witness of C19: the primes 7, 17 and 31 in a segment of 40 bytes, in two orders. -/
theorem sieve_bytes_independent_of_order_witness :
    ∃ r1 r2, sieve 368 40 [[⟨0, 1, 2⟩, ⟨1, 9, 31⟩], [⟨2, 0, 57⟩]] allSet = some r1 ∧
      sieve 368 40 [[⟨2, 0, 57⟩], [⟨1, 9, 31⟩, ⟨0, 1, 2⟩]] allSet = some r2 ∧
      ∀ i, r1.2.bytes i = r2.2.bytes i :=
  sieve_bytes_independent_of_order 368 40 [[⟨0, 1, 2⟩, ⟨1, 9, 31⟩], [⟨2, 0, 57⟩]]
    [[⟨2, 0, 57⟩], [⟨1, 9, 31⟩, ⟨0, 1, 2⟩]] allSet (by decide) (by decide) (by decide)

end EratSmall
